import Mathlib

/-!
Verification of the text-templating utilities of the `langmem` module
(`langmem/utils.py`): the variable-masking pipeline (`_get_var_healer` with
its `escape`, `mask`, `unmask`, `assert_all_required` and `pipe` closures),
the namespace-template resolver (`NamespaceTemplate`, `_get_key`) and the
session formatter (`format_sessions`).

Strings are modelled as `List Char`.  Python `re.sub` with an alternation of
literal patterns is modelled by `subst`: a left-to-right scan that, at each
position, tries the table entries in order and replaces the first matching
key, exactly as the compiled alternation of `re.escape`d literals does.
The freshly generated `uuid4().hex` tokens of the source are taken as
parameters (`toks`), since the embedding is deterministic.
-/

namespace Langmem

/-- One step table lookup: the first table entry whose (non-empty) key is a
literal prefix of `s`, mirroring how a compiled alternation of escaped
literals matches at one position (alternatives tried in order). -/
def findHit (table : List (List Char × List Char)) (s : List Char) :
    Option (List Char × List Char) :=
  table.find? (fun kv => !kv.1.isEmpty && kv.1.isPrefixOf s)

/-- Fuel-driven scan of `re.sub` over an alternation of literal keys:
at each position replace the first matching key by its value, otherwise
copy one character.  `fuel` only needs to dominate the length of `s`. -/
def substGo (table : List (List Char × List Char)) : Nat → List Char → List Char
  | 0, s => s
  | _ + 1, [] => []
  | fuel + 1, c :: rest =>
    match findHit table (c :: rest) with
    | some kv => kv.2 ++ substGo table fuel (rest.drop (kv.1.length - 1))
    | none => c :: substGo table fuel rest

/-- `re.sub` of an alternation of literal keys over `s`. -/
def subst (table : List (List Char × List Char)) (s : List Char) : List Char :=
  substGo table s.length s

/-- One pass of the `escape` closure: `re.sub(r"(?<!X)X(?!X)", "XX", s)`
for a brace `b`, doubling every occurrence of `b` whose neighbours in the
input are not `b`.  `prev` is the character just before the scan position. -/
def escapePass (b : Char) : Option Char → List Char → List Char
  | _, [] => []
  | prev, c :: rest =>
    if c = b ∧ prev ≠ some b ∧ rest.head? ≠ some b then
      c :: c :: escapePass b (some c) rest
    else
      c :: escapePass b (some c) rest

/-- The `escape` closure of `_get_var_healer`: double every lone `{`,
then every lone `}` in the result. -/
def escape (s : List Char) : List Char :=
  escapePass '}' none (escapePass '{' none s)

/-- The literal prefix `<TO_OPTIMIZE` of the first alternative of
`strip_to_optimize_pattern`. -/
def openTag : List Char :=
  ['<', 'T', 'O', '_', 'O', 'P', 'T', 'I', 'M', 'I', 'Z', 'E']

/-- The literal `</TO_OPTIMIZE>`, the second alternative of
`strip_to_optimize_pattern`. -/
def closeTag : List Char :=
  ['<', '/', 'T', 'O', '_', 'O', 'P', 'T', 'I', 'M', 'I', 'Z', 'E', '>']

/-- Drop characters up to and including the first `>` (the lazy `.*?>` with
`re.DOTALL`); `none` when no `>` remains, in which case the alternative
fails to match. -/
def dropToGt : List Char → Option (List Char)
  | [] => none
  | c :: rest => if c = '>' then some rest else dropToGt rest

/-- Fuel-driven scan of
`re.sub(r"<TO_OPTIMIZE.*?>|</TO_OPTIMIZE>", "", s)`: at each position try
the first alternative (`<TO_OPTIMIZE` then lazily up to the next `>`), then
the second (`</TO_OPTIMIZE>`), else copy one character. -/
def stripGo : Nat → List Char → List Char
  | 0, s => s
  | _ + 1, [] => []
  | fuel + 1, c :: rest =>
    if openTag.isPrefixOf (c :: rest) then
      match dropToGt ((c :: rest).drop openTag.length) with
      | some rest2 => stripGo fuel rest2
      | none => c :: stripGo fuel rest
    else if closeTag.isPrefixOf (c :: rest) then
      stripGo fuel ((c :: rest).drop closeTag.length)
    else
      c :: stripGo fuel rest

/-- `strip_to_optimize_pattern.sub("", s)`. -/
def stripToOptimize (s : List Char) : List Char :=
  stripGo s.length s

/-- The `f"{{{v}}}"` placeholder text of a variable name. -/
def braceKey (v : List Char) : List Char :=
  '{' :: v ++ ['}']

/-- `var_to_uuid` as an ordered association list (set-iteration order of
`vars`, with the generated hex tokens supplied as `toks`). -/
def maskTable (vars toks : List (List Char)) : List (List Char × List Char) :=
  (vars.map braceKey).zip toks

/-- `uuid_to_var`: the inverse association list, in the same order. -/
def unmaskTable (vars toks : List (List Char)) : List (List Char × List Char) :=
  toks.zip (vars.map braceKey)

/-- The `mask` closure: replace every known `{name}` by its opaque token. -/
def mask (vars toks : List (List Char)) (s : List Char) : List Char :=
  subst (maskTable vars toks) s

/-- The `unmask` closure: replace every opaque token back by its `{name}`. -/
def unmask (vars toks : List (List Char)) (s : List Char) : List Char :=
  subst (unmaskTable vars toks) s

/-- Python's substring test `u in s`. -/
def containsSub (u : List Char) : List Char → Bool
  | [] => u.isEmpty
  | c :: rest => u.isPrefixOf (c :: rest) || containsSub u rest

/-- The text of the `ValueError` raised by `assert_all_required`. -/
def missingMessage (missing : List (List Char)) : List Char :=
  "Missing required variable: ".toList ++ List.intercalate ", ".toList missing

/-- The `assert_all_required` closure: when `allRequired`, fail with a
message listing every variable whose `{name}` text does not occur in the
input; otherwise pass the input through. -/
def assertAllRequired (vars : List (List Char)) (allRequired : Bool)
    (s : List Char) : Except (List Char) (List Char) :=
  if allRequired = false then .ok s
  else
    let missing := vars.filter (fun v => !containsSub (braceKey v) s)
    if missing.isEmpty then .ok s else .error (missingMessage missing)

/-- The `pipe` closure:
`unmask(strip_to_optimize_pattern.sub("", escape(mask(assert_all_required(s)))))`,
with the `ValueError` of the assertion propagated. -/
def pipe (vars toks : List (List Char)) (allRequired : Bool)
    (s : List Char) : Except (List Char) (List Char) :=
  match assertAllRequired vars allRequired s with
  | .error e => .error e
  | .ok t => .ok (unmask vars toks (stripToOptimize (escape (mask vars toks t))))

/-- `_get_var_healer`: for an empty variable set the bare `escape` function
is returned, otherwise the composed `pipe`. -/
def _get_var_healer (vars toks : List (List Char)) (allRequired : Bool) :
    List Char → Except (List Char) (List Char) :=
  if vars.isEmpty then fun s => .ok (escape s)
  else pipe vars toks allRequired

/-! Basic facts about `findHit`, `subst` and `stripToOptimize`:
fuel irrelevance and step-unfolding equations. -/

theorem findHit_some {table : List (List Char × List Char)} {s : List Char}
    {kv : List Char × List Char} (h : findHit table s = some kv) :
    kv ∈ table ∧ kv.1 ≠ [] ∧ kv.1 <+: s := by
  have hmem := List.mem_of_find?_eq_some h
  have hp := List.find?_some h
  simp only [Bool.and_eq_true, Bool.not_eq_true', List.isEmpty_eq_false_iff_exists_mem] at hp
  refine ⟨hmem, ?_, List.isPrefixOf_iff_prefix.mp hp.2⟩
  rcases hp.1 with ⟨a, ha⟩
  intro hnil
  rw [hnil] at ha
  exact List.not_mem_nil a ha

theorem findHit_none {table : List (List Char × List Char)} {s : List Char}
    (h : ∀ kv ∈ table, kv.1 ≠ [] → ¬ kv.1 <+: s) : findHit table s = none := by
  rw [findHit, List.find?_eq_none]
  intro kv hkv hp
  simp only [Bool.and_eq_true, Bool.not_eq_true', List.isEmpty_eq_false_iff_exists_mem] at hp
  rcases hp with ⟨⟨a, ha⟩, hpref⟩
  exact h kv hkv (fun hnil => by rw [hnil] at ha; exact List.not_mem_nil a ha)
    (List.isPrefixOf_iff_prefix.mp hpref)

theorem substGo_agree (table : List (List Char × List Char)) :
    ∀ f1 f2 s, s.length ≤ f1 → s.length ≤ f2 →
      substGo table f1 s = substGo table f2 s := by
  intro f1
  induction f1 with
  | zero =>
    intro f2 s h1 _
    have hs : s = [] := List.eq_nil_of_length_eq_zero (Nat.le_zero.mp h1)
    subst hs
    cases f2 <;> rfl
  | succ f ih =>
    intro f2 s h1 h2
    match s with
    | [] => cases f2 <;> rfl
    | c :: rest =>
      match f2 with
      | 0 => exact absurd h2 (by simp)
      | f2 + 1 =>
        have hr : rest.length ≤ f := by simpa using h1
        have hr2 : rest.length ≤ f2 := by simpa using h2
        cases hfind : findHit table (c :: rest) with
        | none =>
          simp only [substGo, hfind]
          rw [ih f2 rest hr hr2]
        | some kv =>
          have hd : (rest.drop (kv.1.length - 1)).length ≤ rest.length := by
            rw [List.length_drop]; omega
          simp only [substGo, hfind]
          rw [ih f2 _ (le_trans hd hr) (le_trans hd hr2)]

theorem subst_nil (table : List (List Char × List Char)) : subst table [] = [] := rfl

theorem subst_cons_some {table : List (List Char × List Char)} {c : Char}
    {rest : List Char} {kv : List Char × List Char}
    (h : findHit table (c :: rest) = some kv) :
    subst table (c :: rest) = kv.2 ++ subst table (rest.drop (kv.1.length - 1)) := by
  have hd : (rest.drop (kv.1.length - 1)).length ≤ rest.length := by
    rw [List.length_drop]; omega
  show substGo table (rest.length + 1) (c :: rest) = _
  simp only [substGo, h]
  rw [substGo_agree table rest.length (rest.drop (kv.1.length - 1)).length _ hd le_rfl]
  rfl

theorem subst_cons_none {table : List (List Char × List Char)} {c : Char}
    {rest : List Char} (h : findHit table (c :: rest) = none) :
    subst table (c :: rest) = c :: subst table rest := by
  show substGo table (rest.length + 1) (c :: rest) = _
  simp only [substGo, h]
  rfl

/-- A key that consumed the head: `subst` continues after the whole key. -/
theorem subst_cons_some_drop {table : List (List Char × List Char)} {s : List Char}
    {kv : List Char × List Char} (hs : s ≠ [])
    (h : findHit table s = some kv) :
    subst table s = kv.2 ++ subst table (s.drop kv.1.length) := by
  match s with
  | [] => exact absurd rfl hs
  | c :: rest =>
    rcases findHit_some h with ⟨-, hne, -⟩
    have hpos : 0 < kv.1.length := List.length_pos.mpr hne
    rw [subst_cons_some h]
    congr 2
    cases hk : kv.1.length with
    | zero => omega
    | succ n => simp

theorem dropToGt_length {s r : List Char} (h : dropToGt s = some r) :
    r.length < s.length := by
  induction s with
  | nil => simp [dropToGt] at h
  | cons c rest ih =>
    by_cases hc : c = '>'
    · simp [dropToGt, hc] at h
      subst h; simp
    · simp [dropToGt, hc] at h
      exact Nat.lt_trans (ih h) (by simp)

theorem stripGo_agree :
    ∀ f1 f2 s, s.length ≤ f1 → s.length ≤ f2 → stripGo f1 s = stripGo f2 s := by
  intro f1
  induction f1 with
  | zero =>
    intro f2 s h1 _
    have hs : s = [] := List.eq_nil_of_length_eq_zero (Nat.le_zero.mp h1)
    subst hs
    cases f2 <;> rfl
  | succ f ih =>
    intro f2 s h1 h2
    match s with
    | [] => cases f2 <;> rfl
    | c :: rest =>
      match f2 with
      | 0 => exact absurd h2 (by simp)
      | f2 + 1 =>
        have hr : rest.length ≤ f := by simpa using h1
        have hr2 : rest.length ≤ f2 := by simpa using h2
        have hop12 : openTag.length = 12 := rfl
        have hcl14 : closeTag.length = 14 := rfl
        simp only [stripGo]
        cases hopen : openTag.isPrefixOf (c :: rest) with
        | true =>
          rw [if_pos rfl, if_pos rfl]
          cases hgt : dropToGt ((c :: rest).drop openTag.length) with
          | none =>
            rw [ih f2 rest hr hr2]
          | some rest2 =>
            have hlt : rest2.length < ((c :: rest).drop openTag.length).length :=
              dropToGt_length hgt
            have hlen : ((c :: rest).drop openTag.length).length = rest.length + 1 - 12 := by
              rw [List.length_drop, List.length_cons, hop12]
            exact ih f2 rest2 (by omega) (by omega)
        | false =>
          rw [if_neg Bool.false_ne_true, if_neg Bool.false_ne_true]
          cases hclose : closeTag.isPrefixOf (c :: rest) with
          | true =>
            rw [if_pos rfl, if_pos rfl]
            have hlen : ((c :: rest).drop closeTag.length).length = rest.length + 1 - 14 := by
              rw [List.length_drop, List.length_cons, hcl14]
            exact ih f2 _ (by omega) (by omega)
          | false =>
            rw [if_neg Bool.false_ne_true, if_neg Bool.false_ne_true]
            rw [ih f2 rest hr hr2]

theorem strip_nil : stripToOptimize [] = [] := rfl

theorem strip_cons_open_some {c : Char} {rest rest2 : List Char}
    (hopen : openTag.isPrefixOf (c :: rest) = true)
    (hgt : dropToGt ((c :: rest).drop openTag.length) = some rest2) :
    stripToOptimize (c :: rest) = stripToOptimize rest2 := by
  have hlt : rest2.length < ((c :: rest).drop openTag.length).length :=
    dropToGt_length hgt
  have hlen : ((c :: rest).drop openTag.length).length = rest.length + 1 - 12 := by
    rw [List.length_drop, List.length_cons]
    rfl
  show stripGo (rest.length + 1) (c :: rest) = _
  simp only [stripGo]
  rw [if_pos hopen]
  simp only [hgt]
  exact stripGo_agree rest.length rest2.length rest2 (by omega) le_rfl

theorem strip_cons_open_none {c : Char} {rest : List Char}
    (hopen : openTag.isPrefixOf (c :: rest) = true)
    (hgt : dropToGt ((c :: rest).drop openTag.length) = none) :
    stripToOptimize (c :: rest) = c :: stripToOptimize rest := by
  show stripGo (rest.length + 1) (c :: rest) = _
  simp only [stripGo]
  rw [if_pos hopen]
  simp only [hgt]
  rfl

theorem strip_cons_close {c : Char} {rest : List Char}
    (hopen : openTag.isPrefixOf (c :: rest) = false)
    (hclose : closeTag.isPrefixOf (c :: rest) = true) :
    stripToOptimize (c :: rest) = stripToOptimize ((c :: rest).drop closeTag.length) := by
  have hcl14 : closeTag.length = 14 := rfl
  show stripGo (rest.length + 1) (c :: rest) = _
  simp only [stripGo]
  rw [if_neg (by simp [hopen]), if_pos hclose]
  exact stripGo_agree rest.length _ _
    (by rw [List.length_drop, List.length_cons, hcl14]; omega) le_rfl

theorem strip_cons_copy {c : Char} {rest : List Char}
    (hopen : openTag.isPrefixOf (c :: rest) = false)
    (hclose : closeTag.isPrefixOf (c :: rest) = false) :
    stripToOptimize (c :: rest) = c :: stripToOptimize rest := by
  show stripGo (rest.length + 1) (c :: rest) = _
  simp only [stripGo]
  rw [if_neg (by simp [hopen]), if_neg (by simp [hclose])]
  rfl

/-! The `escape` function: refinement to a one-pass description, idempotence,
and a representation by neighbour triples used for substring reasoning. -/

/-- Single-pass description of brace escaping, following the specification:
a character is doubled exactly when it is a brace whose neighbours in the
original string are not the same brace. -/
def specEscapeGo : Option Char → List Char → List Char
  | _, [] => []
  | prev, c :: rest =>
    if (c = '{' ∨ c = '}') ∧ prev ≠ some c ∧ rest.head? ≠ some c then
      c :: c :: specEscapeGo (some c) rest
    else
      c :: specEscapeGo (some c) rest

/-- Modelled from the spec: `escape` "doubles every single, unpaired `{` to
`{{` and every single unpaired `}` to `}}` (braces already doubled are left
untouched)", as one pass over the original string. -/
def specEscape (s : List Char) : List Char :=
  specEscapeGo none s

theorem escapePass_head? (b : Char) (prev : Option Char) (s : List Char) :
    (escapePass b prev s).head? = s.head? := by
  match s with
  | [] => rfl
  | c :: rest =>
    rw [escapePass]
    split <;> rfl

theorem escape_eq_specEscapeGo (prev : Option Char) (s : List Char) :
    escapePass '}' prev (escapePass '{' prev s) = specEscapeGo prev s := by
  induction s generalizing prev with
  | nil => rfl
  | cons c rest ih =>
    by_cases hopen : c = '{' ∧ prev ≠ some '{' ∧ rest.head? ≠ some '{'
    · rw [escapePass, if_pos hopen]
      rcases hopen with ⟨hc, hp, hn⟩
      subst hc
      rw [escapePass, if_neg (by simp), escapePass, if_neg (by simp)]
      rw [specEscapeGo, if_pos ⟨Or.inl rfl, hp, hn⟩]
      rw [ih (some '{')]
    · rw [escapePass, if_neg hopen]
      by_cases hcl : c = '}' ∧ prev ≠ some '}' ∧
          (escapePass '{' (some c) rest).head? ≠ some '}'
      · rw [escapePass, if_pos hcl]
        rcases hcl with ⟨hc, hp, hn⟩
        subst hc
        rw [escapePass_head?] at hn
        rw [specEscapeGo, if_pos ⟨Or.inr rfl, hp, hn⟩]
        rw [ih (some '}')]
      · rw [escapePass, if_neg hcl]
        rw [escapePass_head?] at hcl
        have hspec : ¬ ((c = '{' ∨ c = '}') ∧ prev ≠ some c ∧ rest.head? ≠ some c) := by
          rintro ⟨hbr | hbr, hp, hn⟩
          · exact hopen ⟨hbr, by rw [hbr] at hp; exact hp, by rw [hbr] at hn; exact hn⟩
          · exact hcl ⟨hbr, by rw [hbr] at hp; exact hp, by rw [hbr] at hn; exact hn⟩
        rw [specEscapeGo, if_neg hspec]
        rw [ih (some c)]

/-- The implementation's two regex passes compute the one-pass description. -/
theorem escape_eq_specEscape (s : List Char) : escape s = specEscape s :=
  escape_eq_specEscapeGo none s

theorem escapePass_of_not_mem {b : Char} {s : List Char} (prev : Option Char)
    (h : b ∉ s) : escapePass b prev s = s := by
  induction s generalizing prev with
  | nil => rfl
  | cons c rest ih =>
    have hc : c ≠ b := fun he => h (he ▸ List.mem_cons_self c rest)
    rw [escapePass, if_neg (by rintro ⟨he, -⟩; exact hc he)]
    rw [ih (some c) (fun hm => h (List.mem_cons_of_mem c hm))]

theorem escape_of_no_braces {s : List Char} (h1 : '{' ∉ s) (h2 : '}' ∉ s) :
    escape s = s := by
  rw [escape, escapePass_of_not_mem none h1, escapePass_of_not_mem none h2]

/-- `NoLone b prev s`: every occurrence of `b` in `s` has an identical
neighbour (taking `prev` as the character just before `s`). -/
def NoLone (b : Char) : Option Char → List Char → Prop
  | _, [] => True
  | prev, c :: rest =>
    (c = b → prev = some b ∨ rest.head? = some b) ∧ NoLone b (some c) rest

theorem escapePass_of_noLone {b : Char} {prev : Option Char} {s : List Char}
    (h : NoLone b prev s) : escapePass b prev s = s := by
  induction s generalizing prev with
  | nil => rfl
  | cons c rest ih =>
    rcases h with ⟨h1, h2⟩
    rw [escapePass, if_neg ?_, ih h2]
    rintro ⟨hc, hp, hn⟩
    rcases h1 hc with hd | hd
    · exact hp hd
    · exact hn hd

theorem noLone_escapePass (b : Char) (prev : Option Char) (s : List Char) :
    NoLone b prev (escapePass b prev s) := by
  induction s generalizing prev with
  | nil => exact trivial
  | cons c rest ih =>
    by_cases hc : c = b ∧ prev ≠ some b ∧ rest.head? ≠ some b
    · rw [escapePass, if_pos hc]
      exact ⟨fun _ => Or.inr (by simp [hc.1]), fun _ => Or.inl (by simp [hc.1]),
        ih (some c)⟩
    · rw [escapePass, if_neg hc]
      refine ⟨?_, ih (some c)⟩
      intro hcb
      by_cases hp : prev = some b
      · exact Or.inl hp
      · right
        rw [escapePass_head?]
        by_cases hn : rest.head? = some b
        · exact hn
        · exact absurd ⟨hcb, hp, hn⟩ hc

theorem noLone_escapePass_other {b b' : Char} (hbb : b ≠ b')
    {prev : Option Char} {s : List Char} (h : NoLone b prev s) :
    NoLone b prev (escapePass b' prev s) := by
  induction s generalizing prev with
  | nil => exact trivial
  | cons c rest ih =>
    rcases h with ⟨h1, h2⟩
    by_cases hc : c = b' ∧ prev ≠ some b' ∧ rest.head? ≠ some b'
    · rw [escapePass, if_pos hc]
      have hcb : c ≠ b := by rw [hc.1]; exact fun he => hbb he.symm
      exact ⟨fun he => absurd he hcb,
        fun he => absurd he hcb, ih h2⟩
    · rw [escapePass, if_neg hc]
      refine ⟨?_, ih h2⟩
      intro hcb
      rcases h1 hcb with hd | hd
      · exact Or.inl hd
      · right
        rw [escapePass_head?]
        exact hd

/-- After one `escape`, no brace is lone any more. -/
theorem noLone_escape (s : List Char) :
    NoLone '{' none (escape s) ∧ NoLone '}' none (escape s) := by
  constructor
  · exact noLone_escapePass_other (by decide) (noLone_escapePass '{' none s)
  · exact noLone_escapePass '}' none _

theorem escape_of_noLone {s : List Char}
    (h1 : NoLone '{' none s) (h2 : NoLone '}' none s) : escape s = s := by
  rw [escape, escapePass_of_noLone h1, escapePass_of_noLone h2]

theorem escape_idem (s : List Char) : escape (escape s) = escape s :=
  escape_of_noLone (noLone_escape s).1 (noLone_escape s).2

/-! A representation of the one-pass escape by neighbour triples, giving
clean decompositions of `escape` over list concatenation. -/

/-- Head of `s`, or the carried lookahead `q` when `s` is empty. -/
def headOr (q : Option Char) : List Char → Option Char
  | [] => q
  | c :: _ => some c

/-- Last element of `s`, or the carried context `p` when `s` is empty. -/
def lastOr (p : Option Char) (s : List Char) : Option Char :=
  match s.getLast? with
  | some l => some l
  | none => p

/-- Annotate every character with its original neighbours; `p` is the
character before the list and `q` the one after it. -/
def wnb (q : Option Char) : Option Char → List Char → List (Option Char × Char × Option Char)
  | _, [] => []
  | p, c :: rest => (p, c, headOr q rest) :: wnb q (some c) rest

/-- What one annotated character contributes to the escaped output. -/
def emitEsc (t : Option Char × Char × Option Char) : List Char :=
  if (t.2.1 = '{' ∨ t.2.1 = '}') ∧ t.1 ≠ some t.2.1 ∧ t.2.2 ≠ some t.2.1 then
    [t.2.1, t.2.1]
  else [t.2.1]

/-- Escaped output of an annotated list. -/
def flatEsc (l : List (Option Char × Char × Option Char)) : List Char :=
  l.flatMap emitEsc

theorem headOr_none (l : List Char) : headOr none l = l.head? := by
  cases l <;> rfl

theorem headOr_append (q : Option Char) (a b : List Char) :
    headOr q (a ++ b) = headOr (headOr q b) a := by
  cases a <;> rfl

theorem lastOr_cons_ne (p : Option Char) {s : List Char} (h : s ≠ []) :
    lastOr p s = s.getLast? := by
  rw [lastOr]
  cases hgl : s.getLast? with
  | none =>
    rw [List.getLast?_eq_none_iff] at hgl
    exact absurd hgl h
  | some l => rfl

theorem lastOr_append (p : Option Char) (a b : List Char) :
    lastOr p (a ++ b) = lastOr (lastOr p a) b := by
  match b with
  | [] => simp [lastOr]
  | c :: t =>
    rw [lastOr_cons_ne p (by simp), lastOr_cons_ne (lastOr p a) (by simp),
      List.getLast?_append_of_ne_nil a (by simp)]

theorem lastOr_concat (p : Option Char) (a : List Char) (c : Char) :
    lastOr p (a ++ [c]) = some c := by
  rw [lastOr]
  simp

theorem wnb_append (q p : Option Char) (x y : List Char) :
    wnb q p (x ++ y) = wnb (headOr q y) p x ++ wnb q (lastOr p x) y := by
  induction x generalizing p with
  | nil => simp [wnb, lastOr]
  | cons c t ih =>
    show (p, c, headOr q (t ++ y)) :: wnb q (some c) (t ++ y) = _
    rw [ih (some c), headOr_append]
    have hl : lastOr p (c :: t) = lastOr (some c) t := by
      match t with
      | [] => simp [lastOr]
      | d :: t2 =>
        rw [lastOr_cons_ne p (by simp), lastOr_cons_ne (some c) (by simp)]
        exact List.getLast?_append_of_ne_nil [c] (by simp)
    rw [hl]
    rfl

theorem flatEsc_append (a b : List (Option Char × Char × Option Char)) :
    flatEsc (a ++ b) = flatEsc a ++ flatEsc b :=
  List.flatMap_append a b emitEsc

theorem specEscapeGo_eq_flat (p : Option Char) (s : List Char) :
    specEscapeGo p s = flatEsc (wnb none p s) := by
  induction s generalizing p with
  | nil => rfl
  | cons c rest ih =>
    show specEscapeGo p (c :: rest) = flatEsc ((p, c, headOr none rest) :: wnb none (some c) rest)
    have hflat : flatEsc ((p, c, headOr none rest) :: wnb none (some c) rest) =
        emitEsc (p, c, headOr none rest) ++ flatEsc (wnb none (some c) rest) := rfl
    rw [hflat, ← ih (some c), headOr_none, specEscapeGo, emitEsc]
    by_cases hcond : (c = '{' ∨ c = '}') ∧ p ≠ some c ∧ rest.head? ≠ some c
    · rw [if_pos hcond, if_pos hcond]
      rfl
    · rw [if_neg hcond, if_neg hcond]
      rfl

/-- `escape` in terms of the annotated representation. -/
theorem escape_eq_flat (s : List Char) : escape s = flatEsc (wnb none none s) := by
  rw [escape_eq_specEscape, specEscape, specEscapeGo_eq_flat]

theorem flatEsc_wnb_braceFree {u : List Char} (q p : Option Char)
    (h1 : '{' ∉ u) (h2 : '}' ∉ u) : flatEsc (wnb q p u) = u := by
  induction u generalizing p with
  | nil => rfl
  | cons c t ih =>
    have hc1 : c ≠ '{' := fun he => h1 (he ▸ List.mem_cons_self c t)
    have hc2 : c ≠ '}' := fun he => h2 (he ▸ List.mem_cons_self c t)
    show emitEsc (p, c, headOr q t) ++ flatEsc (wnb q (some c) t) = c :: t
    rw [emitEsc, if_neg (by rintro ⟨hbr | hbr, -⟩; exact hc1 hbr; exact hc2 hbr)]
    rw [ih (some c) (fun hm => h1 (List.mem_cons_of_mem c hm))
      (fun hm => h2 (List.mem_cons_of_mem c hm))]
    rfl

theorem flatEsc_wnb_getLast (q : Option Char) :
    ∀ (x : List Char) (l : Char) (p : Option Char), x.getLast? = some l →
      ∃ G, flatEsc (wnb q p x) = G ++ [l] := by
  intro x
  induction x with
  | nil => intro l p h; simp at h
  | cons c t ih =>
    intro l p h
    match t with
    | [] =>
      have hc : c = l := by simpa using h
      subst hc
      show ∃ G, emitEsc (p, c, q) ++ [] = G ++ [c]
      rw [emitEsc]
      by_cases hcond : (c = '{' ∨ c = '}') ∧ p ≠ some c ∧ q ≠ some c
      · exact ⟨[c], by rw [if_pos hcond]; rfl⟩
      · exact ⟨[], by rw [if_neg hcond]; rfl⟩
    | d :: t2 =>
      have ht : (d :: t2).getLast? = some l := by
        rw [show (c :: d :: t2).getLast? = (d :: t2).getLast? from
          List.getLast?_append_of_ne_nil [c] (by simp)] at h
        exact h
      rcases ih l (some c) ht with ⟨G, hG⟩
      refine ⟨emitEsc (p, c, headOr q (d :: t2)) ++ G, ?_⟩
      show emitEsc (p, c, headOr q (d :: t2)) ++ flatEsc (wnb q (some c) (d :: t2)) = _
      rw [hG, List.append_assoc]

/-- A brace-free factor passes through `escape` verbatim. -/
theorem escape_braceFree_factor (x u y : List Char)
    (h1 : '{' ∉ u) (h2 : '}' ∉ u) :
    ∃ A B, escape (x ++ u ++ y) = A ++ u ++ B := by
  rw [escape_eq_flat, List.append_assoc, wnb_append, flatEsc_append, wnb_append,
    flatEsc_append]
  exact ⟨flatEsc (wnb (headOr none (u ++ y)) none x),
    flatEsc (wnb none (lastOr (lastOr none x) u) y), by
      rw [flatEsc_wnb_braceFree _ _ h1 h2, List.append_assoc]⟩

theorem mem_escapePass {b a : Char} {p : Option Char} {s : List Char}
    (h : a ∈ escapePass b p s) : a ∈ s := by
  induction s generalizing p with
  | nil => simpa [escapePass] using h
  | cons c rest ih =>
    rw [escapePass] at h
    by_cases hcond : c = b ∧ p ≠ some b ∧ rest.head? ≠ some b
    · rw [if_pos hcond] at h
      rcases List.mem_cons.mp h with h | h
      · exact h ▸ List.mem_cons_self c rest
      · rcases List.mem_cons.mp h with h2 | h2
        · exact h2 ▸ List.mem_cons_self c rest
        · exact List.mem_cons_of_mem c (ih h2)
    · rw [if_neg hcond] at h
      rcases List.mem_cons.mp h with h | h
      · exact h ▸ List.mem_cons_self c rest
      · exact List.mem_cons_of_mem c (ih h)

theorem mem_escape {a : Char} {s : List Char} (h : a ∈ escape s) : a ∈ s :=
  mem_escapePass (mem_escapePass h)

theorem mem_subst {table : List (List Char × List Char)} {a : Char} :
    ∀ {s : List Char}, a ∈ subst table s → a ∈ s ∨ ∃ kv ∈ table, a ∈ kv.2 := by
  suffices H : ∀ n s, s.length ≤ n → a ∈ subst table s →
      a ∈ s ∨ ∃ kv ∈ table, a ∈ kv.2 by
    intro s
    exact H s.length s le_rfl
  intro n
  induction n with
  | zero =>
    intro s hs h
    have : s = [] := List.eq_nil_of_length_eq_zero (Nat.le_zero.mp hs)
    subst this
    simp [subst_nil] at h
  | succ n ih =>
    intro s hs h
    match s with
    | [] => simp [subst_nil] at h
    | c :: rest =>
      cases hfind : findHit table (c :: rest) with
      | none =>
        rw [subst_cons_none hfind] at h
        rcases List.mem_cons.mp h with h | h
        · exact Or.inl (h ▸ List.mem_cons_self c rest)
        · rcases ih rest (by simpa using hs) h with hm | hm
          · exact Or.inl (List.mem_cons_of_mem c hm)
          · exact Or.inr hm
      | some kv =>
        rw [subst_cons_some hfind] at h
        rcases List.mem_append.mp h with h | h
        · exact Or.inr ⟨kv, (findHit_some hfind).1, h⟩
        · have hd : (rest.drop (kv.1.length - 1)).length ≤ n := by
            rw [List.length_drop]
            have : rest.length ≤ n := by simpa using hs
            omega
          rcases ih _ hd h with hm | hm
          · exact Or.inl (List.mem_cons_of_mem c (List.mem_of_mem_drop hm))
          · exact Or.inr hm

/-- Without a `<` no tag can match: stripping is the identity. -/
theorem strip_of_no_lt {w : List Char} (h : '<' ∉ w) : stripToOptimize w = w := by
  induction w with
  | nil => rfl
  | cons c rest ih =>
    have hc : c ≠ '<' := fun he => h (he ▸ List.mem_cons_self c rest)
    have hop : openTag.isPrefixOf (c :: rest) = false := by
      rw [openTag]
      show (('<' == c) && _) = false
      simp [Ne.symm hc]
    have hcl : closeTag.isPrefixOf (c :: rest) = false := by
      rw [closeTag]
      show (('<' == c) && _) = false
      simp [Ne.symm hc]
    rw [strip_cons_copy hop hcl, ih (fun hm => h (List.mem_cons_of_mem c hm))]

/-- Around a brace-free factor `{bh :: bt}` the escape pass always produces
the doubled text `{{bh :: bt}}`, whatever the surrounding text: the inner
braces are either doubled (lone) or already flanked by an equal brace. -/
theorem escape_doubles_stray (x y : List Char) (bh : Char) (bt : List Char)
    (hb1 : '{' ∉ bh :: bt) (hb2 : '}' ∉ bh :: bt) :
    ('{' :: '{' :: ((bh :: bt) ++ ['}', '}'])) <:+:
      escape (x ++ ('{' :: (bh :: bt) ++ ['}']) ++ y) := by
  have hbh : bh ≠ '{' := fun he => hb1 (he ▸ List.mem_cons_self bh bt)
  obtain ⟨lb, hlb⟩ : ∃ lb, (bh :: bt).getLast? = some lb :=
    ⟨(bh :: bt).getLast (by simp), List.getLast?_eq_getLast _ (by simp)⟩
  have hlbmem : lb ∈ bh :: bt := by
    rcases List.mem_getLast?_eq_getLast (Option.mem_def.mpr hlb) with ⟨hne2, heq⟩
    rw [heq]
    exact List.getLast_mem hne2
  have hlbne : lb ≠ '}' := fun he => hb2 (he ▸ hlbmem)
  rw [escape_eq_flat, List.append_assoc]
  rw [show ('{' :: (bh :: bt) ++ ['}']) ++ y = '{' :: ((bh :: bt) ++ ('}' :: y)) from by simp]
  rw [wnb_append]
  rw [show headOr none ('{' :: ((bh :: bt) ++ ('}' :: y))) = some '{' from rfl]
  rw [show wnb none (lastOr none x) ('{' :: ((bh :: bt) ++ ('}' :: y)))
      = (lastOr none x, '{', some bh) :: wnb none (some '{') ((bh :: bt) ++ ('}' :: y))
      from rfl]
  rw [wnb_append none (some '{') (bh :: bt) ('}' :: y)]
  rw [show headOr none ('}' :: y) = some '}' from rfl]
  rw [lastOr_cons_ne (some '{') (by simp), hlb]
  rw [show wnb none (some lb) ('}' :: y)
      = (some lb, '}', headOr none y) :: wnb none (some '}') y from rfl]
  rw [flatEsc_append]
  rw [show flatEsc ((lastOr none x, '{', some bh)
        :: (wnb (some '}') (some '{') (bh :: bt)
            ++ ((some lb, '}', headOr none y) :: wnb none (some '}') y)))
      = emitEsc (lastOr none x, '{', some bh)
        ++ (flatEsc (wnb (some '}') (some '{') (bh :: bt))
            ++ (emitEsc (some lb, '}', headOr none y)
                ++ flatEsc (wnb none (some '}') y))) from by
    simp [flatEsc]]
  rw [flatEsc_wnb_braceFree (some '}') (some '{') hb1 hb2]
  -- evaluate the two emitted chunks according to the surrounding context
  have hE2 : emitEsc (some lb, '}', headOr none y) = ['}', '}'] ∨
      (emitEsc (some lb, '}', headOr none y) = ['}'] ∧
        ∃ yt, y = '}' :: yt) := by
    by_cases hq : headOr none y = some '}'
    · right
      refine ⟨?_, ?_⟩
      · rw [emitEsc, if_neg (by rintro ⟨-, -, hn⟩; exact hn (by simpa using hq))]
      · match y, hq with
        | c :: yt, hq => exact ⟨yt, by simpa using Option.some_inj.mp hq ▸ rfl⟩
    · left
      rw [emitEsc, if_pos ⟨Or.inr rfl, fun he => hlbne (Option.some_inj.mp he), hq⟩]
  have hE1 : emitEsc (lastOr none x, '{', some bh) = ['{', '{'] ∨
      (emitEsc (lastOr none x, '{', some bh) = ['{'] ∧
        ∃ G, flatEsc (wnb (some '{') none x) = G ++ ['{']) := by
    by_cases hp : lastOr none x = some '{'
    · right
      refine ⟨?_, ?_⟩
      · rw [emitEsc, if_neg (by rintro ⟨-, hpp, -⟩; exact hpp hp)]
      · have hx : x.getLast? = some '{' := by
          match x with
          | [] => simp [lastOr] at hp
          | c :: t =>
            rw [lastOr_cons_ne none (by simp)] at hp
            exact hp
        exact flatEsc_wnb_getLast (some '{') x '{' none hx
    · left
      rw [emitEsc, if_pos ⟨Or.inl rfl, hp, fun he => hbh (Option.some_inj.mp he)⟩]
  -- assemble in the four cases
  rcases hE1 with hE1 | ⟨hE1, G, hG⟩ <;> rcases hE2 with hE2 | ⟨hE2, yt, hyt⟩
  · exact ⟨flatEsc (wnb (some '{') none x), flatEsc (wnb none (some '}') y),
      by rw [hE1, hE2]; simp⟩
  · subst hyt
    refine ⟨flatEsc (wnb (some '{') none x),
      flatEsc (wnb none (some '}') yt), ?_⟩
    rw [hE1, hE2]
    rw [show flatEsc (wnb none (some '}') ('}' :: yt))
        = emitEsc (some '}', '}', headOr none yt) ++ flatEsc (wnb none (some '}') yt)
        from rfl]
    rw [show emitEsc (some '}', '}', headOr none yt) = ['}'] from by
      rw [emitEsc, if_neg (by rintro ⟨-, hpp, -⟩; exact hpp rfl)]]
    simp
  · refine ⟨G, flatEsc (wnb none (some '}') y), ?_⟩
    rw [hE1, hE2, hG]
    simp
  · subst hyt
    refine ⟨G, flatEsc (wnb none (some '}') yt), ?_⟩
    rw [hE1, hE2, hG]
    rw [show flatEsc (wnb none (some '}') ('}' :: yt))
        = emitEsc (some '}', '}', headOr none yt) ++ flatEsc (wnb none (some '}') yt)
        from rfl]
    rw [show emitEsc (some '}', '}', headOr none yt) = ['}'] from by
      rw [emitEsc, if_neg (by rintro ⟨-, hpp, -⟩; exact hpp rfl)]]
    simp

/-! Table lemmas: structure of `maskTable`/`unmaskTable` entries, uniqueness
of matches, and copying of runs that no key can match. -/

theorem find?_eq_some_of_unique {α : Type} {p : α → Bool} {l : List α} {a : α}
    (hmem : a ∈ l) (hp : p a = true) (huniq : ∀ b ∈ l, p b = true → b = a) :
    l.find? p = some a := by
  induction l with
  | nil => simp at hmem
  | cons x xs ih =>
    by_cases hx : p x = true
    · have hxa : x = a := huniq x (List.mem_cons_self x xs) hx
      subst hxa
      exact List.find?_cons_of_pos xs hx
    · rw [List.find?_cons_of_neg xs (by simpa using hx)]
      have hmem2 : a ∈ xs := by
        rcases List.mem_cons.mp hmem with h | h
        · exact absurd (h ▸ hp) hx
        · exact h
      exact ih hmem2 (fun b hb hpb => huniq b (List.mem_cons_of_mem x hb) hpb)

theorem assoc_unique {l : List (List Char × List Char)}
    (hnd : (l.map Prod.fst).Nodup) {a b c : List Char}
    (h1 : (a, b) ∈ l) (h2 : (a, c) ∈ l) : b = c := by
  induction l with
  | nil => simp at h1
  | cons x xs ih =>
    rw [List.map_cons, List.nodup_cons] at hnd
    rcases List.mem_cons.mp h1 with h1 | h1 <;> rcases List.mem_cons.mp h2 with h2 | h2
    · rw [← h2] at h1
      exact (Prod.ext_iff.mp h1).2
    · exfalso
      apply hnd.1
      rw [← h1]
      exact List.mem_map.mpr ⟨(a, c), h2, rfl⟩
    · exfalso
      apply hnd.1
      rw [← h2]
      exact List.mem_map.mpr ⟨(a, b), h1, rfl⟩
    · exact ih hnd.2 h1 h2

theorem mem_zip_of_mem_left {l1 l2 : List (List Char)} (hlen : l1.length = l2.length)
    {a : List Char} (ha : a ∈ l1) : ∃ b, (a, b) ∈ l1.zip l2 ∧ b ∈ l2 := by
  induction l1 generalizing l2 with
  | nil => simp at ha
  | cons x xs ih =>
    match l2 with
    | [] => simp at hlen
    | y :: ys =>
      rcases List.mem_cons.mp ha with h | h
      · exact ⟨y, by rw [h]; exact List.mem_cons_self _ _, List.mem_cons_self _ _⟩
      · rcases ih (by simpa using hlen) h with ⟨b, hb1, hb2⟩
        exact ⟨b, List.mem_cons_of_mem _ hb1, List.mem_cons_of_mem _ hb2⟩

theorem maskTable_key {vars toks : List (List Char)} {kv : List Char × List Char}
    (h : kv ∈ maskTable vars toks) : ∃ w ∈ vars, kv.1 = braceKey w := by
  rcases List.of_mem_zip h with ⟨h1, -⟩
  rcases List.mem_map.mp h1 with ⟨w, hw, he⟩
  exact ⟨w, hw, he.symm⟩

theorem unmaskTable_tok {vars toks : List (List Char)} {kv : List Char × List Char}
    (h : kv ∈ unmaskTable vars toks) :
    kv.1 ∈ toks ∧ ∃ w ∈ vars, kv.2 = braceKey w := by
  rcases List.of_mem_zip h with ⟨h1, h2⟩
  rcases List.mem_map.mp h2 with ⟨w, hw, he⟩
  exact ⟨h1, w, hw, he.symm⟩

theorem maskTable_mem_swap {vars toks : List (List Char)} {k t : List Char}
    (h : (k, t) ∈ maskTable vars toks) : (t, k) ∈ unmaskTable vars toks := by
  rw [unmaskTable, ← List.zip_swap]
  exact List.mem_map.mpr ⟨(k, t), h, rfl⟩

theorem braceKey_injective : Function.Injective braceKey := by
  intro v w h
  rw [braceKey, braceKey] at h
  have h2 : v ++ ['}'] = w ++ ['}'] := by
    have := congrArg List.tail h
    simpa using this
  exact List.append_cancel_right h2

theorem maskTable_keys_nodup {vars toks : List (List Char)} (hnd : vars.Nodup)
    (hlen : vars.length = toks.length) :
    ((maskTable vars toks).map Prod.fst).Nodup := by
  rw [maskTable, List.map_fst_zip _ _ (by simp [hlen])]
  exact hnd.map braceKey_injective

theorem unmaskTable_toks_nodup {vars toks : List (List Char)} (hnd : toks.Nodup)
    (hlen : vars.length = toks.length) :
    ((unmaskTable vars toks).map Prod.fst).Nodup := by
  rw [unmaskTable, List.map_fst_zip _ _ (by simp [hlen])]
  exact hnd

/-- No key of a marker-headed table can match at a non-marker character. -/
theorem findHit_none_of_head_ne {table : List (List Char × List Char)} {hmark : Char}
    (htab : ∀ kv ∈ table, ∃ b, kv.1 = hmark :: b) {c : Char} {rest : List Char}
    (hc : c ≠ hmark) : findHit table (c :: rest) = none := by
  apply findHit_none
  intro kv hkv _ hpref
  rcases htab kv hkv with ⟨b, hb⟩
  rw [hb] at hpref
  rcases hpref with ⟨tail, htail⟩
  have hcm : hmark = c := by
    have h2 := congrArg List.head? htail
    simpa using h2
  exact hc hcm.symm

/-- A run without the marker character is copied verbatim by `subst`. -/
theorem subst_copy_run {table : List (List Char × List Char)} {hmark : Char}
    (htab : ∀ kv ∈ table, ∃ b, kv.1 = hmark :: b) :
    ∀ {v : List Char}, hmark ∉ v → ∀ w, subst table (v ++ w) = v ++ subst table w := by
  intro v
  induction v with
  | nil => intro _ w; rfl
  | cons c t ih =>
    intro hv w
    have hc : c ≠ hmark := fun he => hv (he ▸ List.mem_cons_self c t)
    have hfind : findHit table (c :: (t ++ w)) = none :=
      findHit_none_of_head_ne htab hc
    show subst table (c :: (t ++ w)) = _
    rw [subst_cons_none hfind, ih (fun hm => hv (List.mem_cons_of_mem c hm)) w]
    rfl

/-- The whole string is copied when it avoids the marker. -/
theorem subst_id_of_no_marker {table : List (List Char × List Char)} {hmark : Char}
    (htab : ∀ kv ∈ table, ∃ b, kv.1 = hmark :: b)
    {v : List Char} (hv : hmark ∉ v) : subst table v = v := by
  have h2 := subst_copy_run htab hv []
  rw [List.append_nil] at h2
  rw [h2, subst_nil, List.append_nil]

/-- Two placeholder keys with `}`-free names: if one is a prefix of an
extension of the other they have the same name. -/
theorem sentinel_prefix_eq {sep : Char} :
    ∀ {v w t z : List Char}, sep ∉ v → sep ∉ w →
      (v ++ [sep]) ++ t = (w ++ [sep]) ++ z → v = w := by
  intro v
  induction v with
  | nil =>
    intro w t z hv hw h
    match w with
    | [] => rfl
    | c :: w2 =>
      exfalso
      have hsc : sep = c := by
        have h2 := congrArg List.head? h
        simpa using h2
      exact hw (hsc ▸ List.mem_cons_self c w2)
  | cons a v2 ih =>
    intro w t z hv hw h
    match w with
    | [] =>
      exfalso
      have has : a = sep := by
        have h2 := congrArg List.head? h
        simpa using h2
      exact hv (has ▸ List.mem_cons_self a v2)
    | c :: w2 =>
      have hac : a = c := by
        have h2 := congrArg List.head? h
        simpa using h2
      have htail : (v2 ++ [sep]) ++ t = (w2 ++ [sep]) ++ z := by
        have h2 := congrArg List.tail h
        simpa using h2
      have hv2 : sep ∉ v2 := fun hm => hv (List.mem_cons_of_mem a hm)
      have hw2 : sep ∉ w2 := fun hm => hw (List.mem_cons_of_mem c hm)
      rw [hac, ih hv2 hw2 htail]

theorem braceKey_prefix_eq {v w z : List Char}
    (hv : '}' ∉ v) (hw : '}' ∉ w)
    (h : braceKey v <+: braceKey w ++ z) : v = w := by
  rcases h with ⟨t, ht⟩
  apply sentinel_prefix_eq hv hw (t := t) (z := z)
  have h2 := congrArg List.tail ht
  simpa [braceKey] using h2

/-- Equal-length lists: a prefix of an extension is the list itself. -/
theorem prefix_eq_of_length_eq {t1 t2 z : List Char} (hlen : t1.length = t2.length)
    (h : t1 <+: t2 ++ z) : t1 = t2 := by
  rcases h with ⟨u, hu⟩
  calc t1 = (t1 ++ u).take t1.length := (List.take_left t1 u).symm
    _ = (t2 ++ z).take t1.length := by rw [hu]
    _ = (t2 ++ z).take t2.length := by rw [hlen]
    _ = t2 := List.take_left t2 z

/-- A marker-headed key cannot begin strictly inside another key-shaped
factor: its interior never contains the factor's head marker. -/
theorem key_no_straddle {v2 x d : List Char}
    (hv : '{' ∉ v2) (hx : x ≠ []) (hd : d ≠ []) (hdh : d.head? = some '{')
    (hk : braceKey v2 = x ++ d) : False := by
  match x, hx with
  | xc :: xt, _ =>
    have h1 : v2 ++ ['}'] = xt ++ d := by
      rw [braceKey] at hk
      have h2 := congrArg List.tail hk
      simpa using h2
    obtain ⟨dc, dt, hdc⟩ : ∃ dc dt, d = dc :: dt := by
      match d, hd with
      | e :: et, _ => exact ⟨e, et, rfl⟩
    have hdc2 : dc = '{' := by
      rw [hdc] at hdh
      simpa using hdh
    have hmem : '{' ∈ v2 ++ ['}'] := by
      rw [h1, hdc, hdc2]
      exact List.mem_append.mpr (Or.inr (List.mem_cons_self _ _))
    rcases List.mem_append.mp hmem with hm | hm
    · exact hv hm
    · simp at hm

/-- The analogue for a `hd0`-headed key whose body avoids some character
`ch`: the key cannot begin strictly before a factor starting with `ch`. -/
theorem marker_no_straddle {hd0 ch : Char} {body x d : List Char}
    (hb : ch ∉ body) (hx : x ≠ []) (hd : d ≠ []) (hdh : d.head? = some ch)
    (hk : hd0 :: body = x ++ d) : False := by
  match x, hx with
  | xc :: xt, _ =>
    have h1 : body = xt ++ d := by
      have h2 := congrArg List.tail hk
      simpa using h2
    obtain ⟨dc, dt, hdc⟩ : ∃ dc dt, d = dc :: dt := by
      match d, hd with
      | e :: et, _ => exact ⟨e, et, rfl⟩
    have hdc2 : dc = ch := by
      rw [hdc] at hdh
      simpa using hdh
    apply hb
    rw [h1, hdc, hdc2]
    exact List.mem_append.mpr (Or.inr (List.mem_cons_self _ _))

theorem prefixTotal {l1 l2 l3 : List Char} (h1 : l1 <+: l3) (h2 : l2 <+: l3) :
    l1 <+: l2 ∨ l2 <+: l1 :=
  List.prefix_or_prefix_of_prefix h1 h2

theorem maskTable_marker {vars toks : List (List Char)} :
    ∀ kv ∈ maskTable vars toks, ∃ b, kv.1 = '{' :: b := by
  intro kv hkv
  rcases maskTable_key hkv with ⟨w, -, he⟩
  exact ⟨w ++ ['}'], by rw [he]; rfl⟩

theorem unmaskTable_marker {vars toks : List (List Char)} {c : Char}
    (htoks : ∀ t ∈ toks, ∃ b, t = c :: b ∧ c ∉ b) :
    ∀ kv ∈ unmaskTable vars toks, ∃ b, kv.1 = c :: b := by
  intro kv hkv
  rcases htoks kv.1 (unmaskTable_tok hkv).1 with ⟨b, hb, -⟩
  exact ⟨b, hb⟩

/-! Structure of `mask` and `unmask` outputs, for well-formed names
(non-empty, brace-free) and well-formed tokens (a common head marker that
occurs nowhere else, a common length, pairwise distinct). -/

/-- A known placeholder at the head of the string is replaced by its token. -/
theorem mask_head_key {vars toks : List (List Char)}
    (hv2 : ∀ v ∈ vars, '}' ∉ v) (hnd : vars.Nodup) (hlen : vars.length = toks.length)
    {v tv : List Char} (hvt : (braceKey v, tv) ∈ maskTable vars toks) (y : List Char) :
    mask vars toks (braceKey v ++ y) = tv ++ mask vars toks y := by
  have hvmem : v ∈ vars := by
    rcases maskTable_key hvt with ⟨w, hw, he⟩
    rwa [braceKey_injective he]
  have hfind : findHit (maskTable vars toks) (braceKey v ++ y) = some (braceKey v, tv) := by
    apply find?_eq_some_of_unique hvt
    · have h1 : (braceKey v).isPrefixOf (braceKey v ++ y) = true :=
        List.isPrefixOf_iff_prefix.mpr ⟨y, rfl⟩
      simp [braceKey, h1]
    · intro kv hkv hp
      rcases maskTable_key hkv with ⟨w, hwmem, hwe⟩
      simp only [Bool.and_eq_true] at hp
      have hpref : kv.1 <+: braceKey v ++ y := List.isPrefixOf_iff_prefix.mp hp.2
      rw [hwe] at hpref
      have hwv : w = v := braceKey_prefix_eq (hv2 w hwmem) (hv2 v hvmem) hpref
      have hk1 : kv.1 = braceKey v := by rw [hwe, hwv]
      have hkv2 : (braceKey v, kv.2) ∈ maskTable vars toks := by
        rw [← hk1]
        simpa using hkv
      have he2 : kv.2 = tv := assoc_unique (maskTable_keys_nodup hnd hlen) hkv2 hvt
      calc kv = (kv.1, kv.2) := rfl
        _ = (braceKey v, tv) := by rw [hk1, he2]
  rw [mask, subst_cons_some_drop (by simp [braceKey]) hfind]
  show tv ++ subst (maskTable vars toks) ((braceKey v ++ y).drop (braceKey v).length) = _
  rw [List.drop_left]
  rfl

/-- Every verbatim occurrence of a known placeholder is turned into its
token somewhere in the masked output. -/
theorem mask_replaces_key {vars toks : List (List Char)}
    (hv1 : ∀ v ∈ vars, '{' ∉ v) (hv2 : ∀ v ∈ vars, '}' ∉ v)
    (hnd : vars.Nodup) (hlen : vars.length = toks.length)
    {v tv : List Char} (hvt : (braceKey v, tv) ∈ maskTable vars toks) :
    ∀ (x y : List Char), ∃ X Y,
      mask vars toks (x ++ (braceKey v ++ y)) = X ++ (tv ++ Y) := by
  suffices H : ∀ n x, x.length ≤ n → ∀ y, ∃ X Y,
      mask vars toks (x ++ (braceKey v ++ y)) = X ++ (tv ++ Y) by
    intro x y
    exact H x.length x le_rfl y
  intro n
  induction n with
  | zero =>
    intro x hx y
    have hx0 : x = [] := List.eq_nil_of_length_eq_zero (Nat.le_zero.mp hx)
    subst hx0
    exact ⟨[], mask vars toks y, by
      rw [List.nil_append, mask_head_key hv2 hnd hlen hvt y]; rfl⟩
  | succ n ih =>
    intro x hx y
    match x with
    | [] =>
      exact ⟨[], mask vars toks y, by
        rw [List.nil_append, mask_head_key hv2 hnd hlen hvt y]; rfl⟩
    | xc :: xt =>
      show ∃ X Y, mask vars toks (xc :: (xt ++ (braceKey v ++ y))) = X ++ (tv ++ Y)
      cases hfind : findHit (maskTable vars toks) (xc :: (xt ++ (braceKey v ++ y))) with
      | none =>
        rcases ih xt (by simpa using hx) y with ⟨X, Y, hXY⟩
        refine ⟨xc :: X, Y, ?_⟩
        rw [mask, subst_cons_none hfind]
        have hXY2 : subst (maskTable vars toks) (xt ++ (braceKey v ++ y)) = X ++ (tv ++ Y) := hXY
        rw [hXY2]
        rfl
      | some kv =>
        rcases findHit_some hfind with ⟨hkvmem, hkne, hkpref⟩
        have hxpref : (xc :: xt) <+: xc :: (xt ++ (braceKey v ++ y)) := ⟨_, rfl⟩
        have hbranch1 : kv.1 <+: (xc :: xt) → ∃ X Y,
            mask vars toks (xc :: (xt ++ (braceKey v ++ y))) = X ++ (tv ++ Y) := by
          rintro ⟨x2, hx2⟩
          have hs : xc :: (xt ++ (braceKey v ++ y))
              = kv.1 ++ (x2 ++ (braceKey v ++ y)) := by
            rw [← List.cons_append, ← hx2, List.append_assoc]
          have hdrop : (xc :: (xt ++ (braceKey v ++ y))).drop kv.1.length
              = x2 ++ (braceKey v ++ y) := by
            rw [hs, List.drop_left]
          have hlen2 : x2.length ≤ n := by
            have h1 : kv.1.length + x2.length = xt.length + 1 := by
              have h2 := congrArg List.length hx2
              simpa using h2
            have hk1 : 1 ≤ kv.1.length := List.length_pos.mpr hkne
            have hxn : xt.length + 1 ≤ n + 1 := by simpa using hx
            omega
          rcases ih x2 hlen2 y with ⟨X, Y, hXY⟩
          refine ⟨kv.2 ++ X, Y, ?_⟩
          rw [mask, subst_cons_some_drop (by simp) hfind, hdrop]
          have hXY2 : subst (maskTable vars toks) (x2 ++ (braceKey v ++ y)) = X ++ (tv ++ Y) := hXY
          rw [hXY2, List.append_assoc]
        rcases prefixTotal hkpref hxpref with hk_le | hx_le
        · exact hbranch1 hk_le
        · rcases hx_le with ⟨d, hd⟩
          match d with
          | [] => exact hbranch1 ⟨[], by rw [← hd]; simp⟩
          | dc :: dt =>
            exfalso
            have hdh : (dc :: dt).head? = some '{' := by
              rcases hkpref with ⟨u, hu⟩
              have h2 : ((xc :: xt) ++ (dc :: dt)) ++ u
                  = (xc :: xt) ++ (braceKey v ++ y) := by
                rw [hd]
                exact hu
              rw [List.append_assoc] at h2
              have h3 : (dc :: dt) ++ u = braceKey v ++ y :=
                List.append_cancel_left h2
              have h4 := congrArg List.head? h3
              simpa [braceKey] using h4
            rcases maskTable_key hkvmem with ⟨w, hwmem, hwe⟩
            have hkk : '{' :: (w ++ ['}']) = (xc :: xt) ++ (dc :: dt) := by
              rw [show '{' :: (w ++ ['}']) = braceKey w from rfl, ← hwe, ← hd]
            exact marker_no_straddle
              (by
                intro hm
                rcases List.mem_append.mp hm with hm | hm
                · exact hv1 w hwmem hm
                · simp at hm)
              (by simp) (by simp) hdh hkk

/-- A stray placeholder (name not in the variable set) is copied verbatim
by `mask`. -/
theorem mask_keeps_stray {vars toks : List (List Char)}
    (hv1 : ∀ v ∈ vars, '{' ∉ v) (hv2 : ∀ v ∈ vars, '}' ∉ v)
    {bar : List Char} (hbar1 : '{' ∉ bar) (hbar2 : '}' ∉ bar) (hbar3 : bar ∉ vars) :
    ∀ (x y : List Char), ∃ X Y,
      mask vars toks (x ++ (braceKey bar ++ y)) = X ++ (braceKey bar ++ Y) := by
  suffices H : ∀ n x, x.length ≤ n → ∀ y, ∃ X Y,
      mask vars toks (x ++ (braceKey bar ++ y)) = X ++ (braceKey bar ++ Y) by
    intro x y
    exact H x.length x le_rfl y
  have hhead : ∀ y, mask vars toks (braceKey bar ++ y)
      = braceKey bar ++ mask vars toks y := by
    intro y
    have hfind : findHit (maskTable vars toks) (braceKey bar ++ y) = none := by
      apply findHit_none
      intro kv hkv _ hpref
      rcases maskTable_key hkv with ⟨w, hwmem, hwe⟩
      rw [hwe] at hpref
      have hwb : w = bar := braceKey_prefix_eq (hv2 w hwmem) hbar2 hpref
      exact hbar3 (hwb ▸ hwmem)
    have hsplit : braceKey bar ++ y = '{' :: ((bar ++ ['}']) ++ y) := by
      simp [braceKey]
    rw [mask, hsplit]
    rw [subst_cons_none (by rw [← hsplit]; exact hfind)]
    rw [subst_copy_run maskTable_marker
      (by
        intro hm
        rcases List.mem_append.mp hm with hm | hm
        · exact hbar1 hm
        · simp at hm) y]
    simp [braceKey, mask]
  intro n
  induction n with
  | zero =>
    intro x hx y
    have hx0 : x = [] := List.eq_nil_of_length_eq_zero (Nat.le_zero.mp hx)
    subst hx0
    exact ⟨[], mask vars toks y, by simp [hhead y]⟩
  | succ n ih =>
    intro x hx y
    match x with
    | [] => exact ⟨[], mask vars toks y, by simp [hhead y]⟩
    | xc :: xt =>
      show ∃ X Y, mask vars toks (xc :: (xt ++ (braceKey bar ++ y)))
        = X ++ (braceKey bar ++ Y)
      cases hfind : findHit (maskTable vars toks) (xc :: (xt ++ (braceKey bar ++ y))) with
      | none =>
        rcases ih xt (by simpa using hx) y with ⟨X, Y, hXY⟩
        refine ⟨xc :: X, Y, ?_⟩
        rw [mask, subst_cons_none hfind]
        have hXY2 : subst (maskTable vars toks) (xt ++ (braceKey bar ++ y))
            = X ++ (braceKey bar ++ Y) := hXY
        rw [hXY2]
        rfl
      | some kv =>
        rcases findHit_some hfind with ⟨hkvmem, hkne, hkpref⟩
        have hxpref : (xc :: xt) <+: xc :: (xt ++ (braceKey bar ++ y)) := ⟨_, rfl⟩
        have hbranch1 : kv.1 <+: (xc :: xt) → ∃ X Y,
            mask vars toks (xc :: (xt ++ (braceKey bar ++ y)))
              = X ++ (braceKey bar ++ Y) := by
          rintro ⟨x2, hx2⟩
          have hs : xc :: (xt ++ (braceKey bar ++ y))
              = kv.1 ++ (x2 ++ (braceKey bar ++ y)) := by
            rw [← List.cons_append, ← hx2, List.append_assoc]
          have hdrop : (xc :: (xt ++ (braceKey bar ++ y))).drop kv.1.length
              = x2 ++ (braceKey bar ++ y) := by
            rw [hs, List.drop_left]
          have hlen2 : x2.length ≤ n := by
            have h1 : kv.1.length + x2.length = xt.length + 1 := by
              have h2 := congrArg List.length hx2
              simpa using h2
            have hk1 : 1 ≤ kv.1.length := List.length_pos.mpr hkne
            have hxn : xt.length + 1 ≤ n + 1 := by simpa using hx
            omega
          rcases ih x2 hlen2 y with ⟨X, Y, hXY⟩
          refine ⟨kv.2 ++ X, Y, ?_⟩
          rw [mask, subst_cons_some_drop (by simp) hfind, hdrop]
          have hXY2 : subst (maskTable vars toks) (x2 ++ (braceKey bar ++ y))
              = X ++ (braceKey bar ++ Y) := hXY
          rw [hXY2, List.append_assoc]
        rcases prefixTotal hkpref hxpref with hk_le | hx_le
        · exact hbranch1 hk_le
        · rcases hx_le with ⟨d, hd⟩
          match d with
          | [] => exact hbranch1 ⟨[], by rw [← hd]; simp⟩
          | dc :: dt =>
            exfalso
            have hdh : (dc :: dt).head? = some '{' := by
              rcases hkpref with ⟨u, hu⟩
              have h2 : ((xc :: xt) ++ (dc :: dt)) ++ u
                  = (xc :: xt) ++ (braceKey bar ++ y) := by
                rw [hd]
                exact hu
              rw [List.append_assoc] at h2
              have h3 : (dc :: dt) ++ u = braceKey bar ++ y :=
                List.append_cancel_left h2
              have h4 := congrArg List.head? h3
              simpa [braceKey] using h4
            rcases maskTable_key hkvmem with ⟨w, hwmem, hwe⟩
            have hkk : '{' :: (w ++ ['}']) = (xc :: xt) ++ (dc :: dt) := by
              rw [show '{' :: (w ++ ['}']) = braceKey w from rfl, ← hwe, ← hd]
            exact marker_no_straddle
              (by
                intro hm
                rcases List.mem_append.mp hm with hm | hm
                · exact hv1 w hwmem hm
                · simp at hm)
              (by simp) (by simp) hdh hkk

/-- A token at the head of the string is unmasked back to its placeholder. -/
theorem unmask_head_tok {vars toks : List (List Char)} {c : Char} {L : Nat}
    (htoks : ∀ t ∈ toks, ∃ b, t = c :: b ∧ c ∉ b)
    (hlenT : ∀ t ∈ toks, t.length = L)
    (hndT : toks.Nodup) (hlen : vars.length = toks.length)
    {v tv : List Char} (hvt : (tv, braceKey v) ∈ unmaskTable vars toks) (y : List Char) :
    unmask vars toks (tv ++ y) = braceKey v ++ unmask vars toks y := by
  have htvmem : tv ∈ toks := (unmaskTable_tok hvt).1
  obtain ⟨btv, hbtv, -⟩ := htoks tv htvmem
  have htvne : tv ≠ [] := by rw [hbtv]; simp
  have hfind : findHit (unmaskTable vars toks) (tv ++ y) = some (tv, braceKey v) := by
    apply find?_eq_some_of_unique hvt
    · have h1 : tv.isPrefixOf (tv ++ y) = true :=
        List.isPrefixOf_iff_prefix.mpr ⟨y, rfl⟩
      simp [h1, htvne]
    · intro kv hkv hp
      have hkt : kv.1 ∈ toks := (unmaskTable_tok hkv).1
      simp only [Bool.and_eq_true] at hp
      have hpref : kv.1 <+: tv ++ y := List.isPrefixOf_iff_prefix.mp hp.2
      have hk1 : kv.1 = tv :=
        prefix_eq_of_length_eq (by rw [hlenT kv.1 hkt, hlenT tv htvmem]) hpref
      have hkv2 : (tv, kv.2) ∈ unmaskTable vars toks := by
        rw [← hk1]
        simpa using hkv
      have he2 : kv.2 = braceKey v :=
        assoc_unique (unmaskTable_toks_nodup hndT hlen) hkv2 hvt
      calc kv = (kv.1, kv.2) := rfl
        _ = (tv, braceKey v) := by rw [hk1, he2]
  rw [unmask, subst_cons_some_drop (by rw [hbtv]; simp) hfind]
  show braceKey v ++ subst (unmaskTable vars toks) ((tv ++ y).drop tv.length) = _
  rw [List.drop_left]
  rfl

/-- Every token occurrence in the unmask input yields its placeholder in
the output. -/
theorem unmask_extracts_tok {vars toks : List (List Char)} {c : Char} {L : Nat}
    (htoks : ∀ t ∈ toks, ∃ b, t = c :: b ∧ c ∉ b)
    (hlenT : ∀ t ∈ toks, t.length = L)
    (hndT : toks.Nodup) (hlen : vars.length = toks.length)
    {v tv : List Char} (hvt : (tv, braceKey v) ∈ unmaskTable vars toks) :
    ∀ (x y : List Char), ∃ X Y,
      unmask vars toks (x ++ (tv ++ y)) = X ++ (braceKey v ++ Y) := by
  have htvmem : tv ∈ toks := (unmaskTable_tok hvt).1
  obtain ⟨btv, hbtv, hbtvc⟩ := htoks tv htvmem
  suffices H : ∀ n x, x.length ≤ n → ∀ y, ∃ X Y,
      unmask vars toks (x ++ (tv ++ y)) = X ++ (braceKey v ++ Y) by
    intro x y
    exact H x.length x le_rfl y
  intro n
  induction n with
  | zero =>
    intro x hx y
    have hx0 : x = [] := List.eq_nil_of_length_eq_zero (Nat.le_zero.mp hx)
    subst hx0
    exact ⟨[], unmask vars toks y, by
      rw [List.nil_append, unmask_head_tok htoks hlenT hndT hlen hvt y]; rfl⟩
  | succ n ih =>
    intro x hx y
    match x with
    | [] =>
      exact ⟨[], unmask vars toks y, by
        rw [List.nil_append, unmask_head_tok htoks hlenT hndT hlen hvt y]; rfl⟩
    | xc :: xt =>
      show ∃ X Y, unmask vars toks (xc :: (xt ++ (tv ++ y))) = X ++ (braceKey v ++ Y)
      cases hfind : findHit (unmaskTable vars toks) (xc :: (xt ++ (tv ++ y))) with
      | none =>
        rcases ih xt (by simpa using hx) y with ⟨X, Y, hXY⟩
        refine ⟨xc :: X, Y, ?_⟩
        rw [unmask, subst_cons_none hfind]
        have hXY2 : subst (unmaskTable vars toks) (xt ++ (tv ++ y))
            = X ++ (braceKey v ++ Y) := hXY
        rw [hXY2]
        rfl
      | some kv =>
        rcases findHit_some hfind with ⟨hkvmem, hkne, hkpref⟩
        have hxpref : (xc :: xt) <+: xc :: (xt ++ (tv ++ y)) := ⟨_, rfl⟩
        have hbranch1 : kv.1 <+: (xc :: xt) → ∃ X Y,
            unmask vars toks (xc :: (xt ++ (tv ++ y))) = X ++ (braceKey v ++ Y) := by
          rintro ⟨x2, hx2⟩
          have hs : xc :: (xt ++ (tv ++ y)) = kv.1 ++ (x2 ++ (tv ++ y)) := by
            rw [← List.cons_append, ← hx2, List.append_assoc]
          have hdrop : (xc :: (xt ++ (tv ++ y))).drop kv.1.length = x2 ++ (tv ++ y) := by
            rw [hs, List.drop_left]
          have hlen2 : x2.length ≤ n := by
            have h1 : kv.1.length + x2.length = xt.length + 1 := by
              have h2 := congrArg List.length hx2
              simpa using h2
            have hk1 : 1 ≤ kv.1.length := List.length_pos.mpr hkne
            have hxn : xt.length + 1 ≤ n + 1 := by simpa using hx
            omega
          rcases ih x2 hlen2 y with ⟨X, Y, hXY⟩
          refine ⟨kv.2 ++ X, Y, ?_⟩
          rw [unmask, subst_cons_some_drop (by simp) hfind, hdrop]
          have hXY2 : subst (unmaskTable vars toks) (x2 ++ (tv ++ y))
              = X ++ (braceKey v ++ Y) := hXY
          rw [hXY2, List.append_assoc]
        rcases prefixTotal hkpref hxpref with hk_le | hx_le
        · exact hbranch1 hk_le
        · rcases hx_le with ⟨d, hd⟩
          match d with
          | [] => exact hbranch1 ⟨[], by rw [← hd]; simp⟩
          | dc :: dt =>
            exfalso
            have hdh : (dc :: dt).head? = some c := by
              rcases hkpref with ⟨u, hu⟩
              have h2 : ((xc :: xt) ++ (dc :: dt)) ++ u = (xc :: xt) ++ (tv ++ y) := by
                rw [hd]
                exact hu
              rw [List.append_assoc] at h2
              have h3 : (dc :: dt) ++ u = tv ++ y := List.append_cancel_left h2
              have h4 := congrArg List.head? h3
              rw [hbtv] at h4
              simpa using h4
            obtain ⟨bk, hbk, hbkc⟩ := htoks kv.1 (unmaskTable_tok hkvmem).1
            have hkk : c :: bk = (xc :: xt) ++ (dc :: dt) := by rw [← hbk, ← hd]
            exact marker_no_straddle hbkc (by simp) (by simp) hdh hkk

/-- A factor that avoids the token marker and starts with a brace is copied
verbatim by `unmask`. -/
theorem unmask_keeps_factor {vars toks : List (List Char)} {c : Char}
    (htoks : ∀ t ∈ toks, ∃ b, t = c :: b ∧ c ∉ b)
    (htoksBr : ∀ t ∈ toks, '{' ∉ t)
    {mid : List Char} (hmidc : c ∉ mid) (hmidh : mid.head? = some '{') :
    ∀ (x y : List Char), ∃ X Y,
      unmask vars toks (x ++ (mid ++ y)) = X ++ (mid ++ Y) := by
  have hhead : ∀ y, unmask vars toks (mid ++ y) = mid ++ unmask vars toks y := by
    intro y
    exact subst_copy_run (unmaskTable_marker htoks) hmidc y
  suffices H : ∀ n x, x.length ≤ n → ∀ y, ∃ X Y,
      unmask vars toks (x ++ (mid ++ y)) = X ++ (mid ++ Y) by
    intro x y
    exact H x.length x le_rfl y
  intro n
  induction n with
  | zero =>
    intro x hx y
    have hx0 : x = [] := List.eq_nil_of_length_eq_zero (Nat.le_zero.mp hx)
    subst hx0
    exact ⟨[], unmask vars toks y, by simp [hhead y]⟩
  | succ n ih =>
    intro x hx y
    match x with
    | [] => exact ⟨[], unmask vars toks y, by simp [hhead y]⟩
    | xc :: xt =>
      show ∃ X Y, unmask vars toks (xc :: (xt ++ (mid ++ y))) = X ++ (mid ++ Y)
      cases hfind : findHit (unmaskTable vars toks) (xc :: (xt ++ (mid ++ y))) with
      | none =>
        rcases ih xt (by simpa using hx) y with ⟨X, Y, hXY⟩
        refine ⟨xc :: X, Y, ?_⟩
        rw [unmask, subst_cons_none hfind]
        have hXY2 : subst (unmaskTable vars toks) (xt ++ (mid ++ y))
            = X ++ (mid ++ Y) := hXY
        rw [hXY2]
        rfl
      | some kv =>
        rcases findHit_some hfind with ⟨hkvmem, hkne, hkpref⟩
        have hxpref : (xc :: xt) <+: xc :: (xt ++ (mid ++ y)) := ⟨_, rfl⟩
        have hbranch1 : kv.1 <+: (xc :: xt) → ∃ X Y,
            unmask vars toks (xc :: (xt ++ (mid ++ y))) = X ++ (mid ++ Y) := by
          rintro ⟨x2, hx2⟩
          have hs : xc :: (xt ++ (mid ++ y)) = kv.1 ++ (x2 ++ (mid ++ y)) := by
            rw [← List.cons_append, ← hx2, List.append_assoc]
          have hdrop : (xc :: (xt ++ (mid ++ y))).drop kv.1.length = x2 ++ (mid ++ y) := by
            rw [hs, List.drop_left]
          have hlen2 : x2.length ≤ n := by
            have h1 : kv.1.length + x2.length = xt.length + 1 := by
              have h2 := congrArg List.length hx2
              simpa using h2
            have hk1 : 1 ≤ kv.1.length := List.length_pos.mpr hkne
            have hxn : xt.length + 1 ≤ n + 1 := by simpa using hx
            omega
          rcases ih x2 hlen2 y with ⟨X, Y, hXY⟩
          refine ⟨kv.2 ++ X, Y, ?_⟩
          rw [unmask, subst_cons_some_drop (by simp) hfind, hdrop]
          have hXY2 : subst (unmaskTable vars toks) (x2 ++ (mid ++ y))
              = X ++ (mid ++ Y) := hXY
          rw [hXY2, List.append_assoc]
        rcases prefixTotal hkpref hxpref with hk_le | hx_le
        · exact hbranch1 hk_le
        · rcases hx_le with ⟨d, hd⟩
          match d with
          | [] => exact hbranch1 ⟨[], by rw [← hd]; simp⟩
          | dc :: dt =>
            exfalso
            have hdh : (dc :: dt).head? = some '{' := by
              rcases hkpref with ⟨u, hu⟩
              have h2 : ((xc :: xt) ++ (dc :: dt)) ++ u = (xc :: xt) ++ (mid ++ y) := by
                rw [hd]
                exact hu
              rw [List.append_assoc] at h2
              have h3 : (dc :: dt) ++ u = mid ++ y := List.append_cancel_left h2
              have h4 := congrArg List.head? h3
              match mid, hmidh with
              | mc :: mt, hmidh =>
                have hmc : mc = '{' := by simpa using hmidh
                rw [hmc] at h4
                simpa using h4
            obtain ⟨bk, hbk, -⟩ := htoks kv.1 (unmaskTable_tok hkvmem).1
            have hbkBr : '{' ∉ bk := by
              intro hm
              exact htoksBr kv.1 (unmaskTable_tok hkvmem).1 (by rw [hbk]; exact List.mem_cons_of_mem c hm)
            have hkk : c :: bk = (xc :: xt) ++ (dc :: dt) := by rw [← hbk, ← hd]
            exact marker_no_straddle hbkBr (by simp) (by simp) hdh hkk

/-- Round trip: for marker-headed, equal-length, pairwise-distinct tokens
whose marker does not occur in `s`, unmasking undoes masking. -/
theorem unmask_mask {vars toks : List (List Char)} {c : Char} {L : Nat}
    (htoks : ∀ t ∈ toks, ∃ b, t = c :: b ∧ c ∉ b)
    (hlenT : ∀ t ∈ toks, t.length = L)
    (hndT : toks.Nodup) (hlen : vars.length = toks.length) :
    ∀ {s : List Char}, c ∉ s → unmask vars toks (mask vars toks s) = s := by
  suffices H : ∀ n s, s.length ≤ n → c ∉ s →
      unmask vars toks (mask vars toks s) = s by
    intro s hcs
    exact H s.length s le_rfl hcs
  intro n
  induction n with
  | zero =>
    intro s hs _
    have hs0 : s = [] := List.eq_nil_of_length_eq_zero (Nat.le_zero.mp hs)
    subst hs0
    rfl
  | succ n ih =>
    intro s hs hcs
    match s with
    | [] => rfl
    | ch :: rest =>
      have hrest : rest.length ≤ n := by simpa using hs
      cases hfind : findHit (maskTable vars toks) (ch :: rest) with
      | none =>
        have hch : ch ≠ c := fun he => hcs (he ▸ List.mem_cons_self ch rest)
        have hfind2 : findHit (unmaskTable vars toks)
            (ch :: subst (maskTable vars toks) rest) = none :=
          findHit_none_of_head_ne (unmaskTable_marker htoks) hch
        rw [mask, subst_cons_none hfind, unmask, subst_cons_none hfind2]
        have hihr : unmask vars toks (mask vars toks rest) = rest :=
          ih rest hrest (fun hm => hcs (List.mem_cons_of_mem ch hm))
        have hihr2 : subst (unmaskTable vars toks) (subst (maskTable vars toks) rest)
            = rest := hihr
        rw [hihr2]
      | some kv =>
        rcases findHit_some hfind with ⟨hkvmem, hkne, hkpref⟩
        rcases maskTable_key hkvmem with ⟨w, hwmem, hwe⟩
        have hswap : (kv.2, braceKey w) ∈ unmaskTable vars toks := by
          have h1 : (kv.1, kv.2) ∈ maskTable vars toks := by simpa using hkvmem
          rw [hwe] at h1
          exact maskTable_mem_swap h1
        rw [mask, subst_cons_some_drop (by simp) hfind]
        have hhead := unmask_head_tok htoks hlenT hndT hlen hswap
          (subst (maskTable vars toks) ((ch :: rest).drop kv.1.length))
        rw [hhead]
        have hdropn : ((ch :: rest).drop kv.1.length).length ≤ n := by
          rw [List.length_drop]
          have hk1 : 1 ≤ kv.1.length := List.length_pos.mpr hkne
          simp only [List.length_cons]
          omega
        have hdm : unmask vars toks (mask vars toks ((ch :: rest).drop kv.1.length))
            = (ch :: rest).drop kv.1.length :=
          ih _ hdropn (fun hm => hcs (List.mem_of_mem_drop hm))
        have hdm2 : unmask vars toks (subst (maskTable vars toks)
            ((ch :: rest).drop kv.1.length)) = (ch :: rest).drop kv.1.length := hdm
        rw [hdm2, ← hwe]
        rcases hkpref with ⟨u, hu⟩
        calc kv.1 ++ (ch :: rest).drop kv.1.length
            = kv.1 ++ u := by rw [show (ch :: rest).drop kv.1.length = u from by
              rw [← hu, List.drop_left]]
          _ = ch :: rest := hu

/-! Remaining support lemmas for the claim theorems. -/

theorem containsSub_iff {u s : List Char} : containsSub u s = true ↔ u <:+: s := by
  induction s with
  | nil =>
    rw [containsSub]
    rw [List.infix_nil, List.isEmpty_iff]
  | cons c rest ih =>
    rw [containsSub]
    rw [Bool.or_eq_true, ih, List.isPrefixOf_iff_prefix, List.infix_cons_iff]

theorem dropToGt_append {attrs r : List Char} (h : '>' ∉ attrs) :
    dropToGt (attrs ++ '>' :: r) = some r := by
  induction attrs with
  | nil => simp [dropToGt]
  | cons c t ih =>
    have hc : c ≠ '>' := fun he => h (he ▸ List.mem_cons_self c t)
    rw [List.cons_append, dropToGt, if_neg hc]
    exact ih (fun hm => h (List.mem_cons_of_mem c hm))

theorem subst_empty_table (s : List Char) : subst [] s = s := by
  induction s with
  | nil => rfl
  | cons c rest ih =>
    have h : findHit ([] : List (List Char × List Char)) (c :: rest) = none := rfl
    rw [subst_cons_none h, ih]

/-! The claim theorems. -/

/-- Claim C1: for every non-empty variable set the healer built by
`_get_var_healer` is the `pipe` operation, which applies exactly
`assert_all_required`, then `mask`, then `escape`, then removal of every
`<TO_OPTIMIZE...>` opening tag (with optional attributes) and every
`</TO_OPTIMIZE>` closing tag, then `unmask`, in that order. -/
theorem c1_pipe_composition (vars toks : List (List Char)) (ar : Bool) (s : List Char)
    (hvars : vars ≠ []) :
    _get_var_healer vars toks ar s =
      (assertAllRequired vars ar s).map
        (fun t => unmask vars toks (stripToOptimize (escape (mask vars toks t)))) ∧
    (∀ r : List Char, stripToOptimize (closeTag ++ r) = stripToOptimize r) ∧
    (∀ attrs r : List Char, '>' ∉ attrs →
      stripToOptimize (openTag ++ (attrs ++ '>' :: r)) = stripToOptimize r) := by
  refine ⟨?_, ?_, ?_⟩
  · rw [_get_var_healer, if_neg (by simpa [List.isEmpty_iff] using hvars)]
    cases hassert : assertAllRequired vars ar s with
    | error e => rw [pipe, hassert]; rfl
    | ok t => rw [pipe, hassert]; rfl
  · intro r
    have hopen : openTag.isPrefixOf (closeTag ++ r) = false := by
      simp [openTag, closeTag, List.isPrefixOf]
    have hclose : closeTag.isPrefixOf (closeTag ++ r) = true :=
      List.isPrefixOf_iff_prefix.mpr ⟨r, rfl⟩
    have h1 : closeTag ++ r
        = '<' :: (['/', 'T', 'O', '_', 'O', 'P', 'T', 'I', 'M', 'I', 'Z', 'E', '>'] ++ r) := rfl
    rw [h1] at hopen hclose ⊢
    rw [strip_cons_close hopen hclose, ← h1, List.drop_left]
  · intro attrs r hgt
    have h1 : openTag ++ (attrs ++ '>' :: r)
        = '<' :: (['T', 'O', '_', 'O', 'P', 'T', 'I', 'M', 'I', 'Z', 'E']
            ++ (attrs ++ '>' :: r)) := rfl
    have hopen : openTag.isPrefixOf (openTag ++ (attrs ++ '>' :: r)) = true :=
      List.isPrefixOf_iff_prefix.mpr ⟨_, rfl⟩
    have hdrop : dropToGt ((openTag ++ (attrs ++ '>' :: r)).drop openTag.length)
        = some r := by
      rw [List.drop_left]
      exact dropToGt_append hgt
    rw [h1] at hopen hdrop ⊢
    rw [strip_cons_open_some hopen hdrop]

/-- Witness for C1: a concrete opening tag with an attribute is stripped. -/
theorem c1_pipe_composition_witness :
    stripToOptimize (openTag ++ ([' '] ++ '>' :: ['h', 'i'])) = stripToOptimize ['h', 'i'] :=
  (c1_pipe_composition [['a']] [['t']] false ['x'] (by decide)).2.2 [' '] ['h', 'i']
    (by decide)

/-- Claim C3 (amended): for tokens that share a common length, are pairwise
distinct, and begin with a common marker character that occurs nowhere else
in any token and nowhere in `S`, unmask(mask(S)) = S.  (The marker condition
implies that no token occurs in `S` as literal text.) -/
theorem c3_mask_unmask_roundtrip (vars toks : List (List Char)) (c : Char) (L : Nat)
    (s : List Char)
    (hvars : vars ≠ [])
    (htoks : ∀ t ∈ toks, ∃ b, t = c :: b ∧ c ∉ b)
    (hlenT : ∀ t ∈ toks, t.length = L)
    (hndT : toks.Nodup)
    (hlen : vars.length = toks.length)
    (hcs : c ∉ s) :
    unmask vars toks (mask vars toks s) = s :=
  unmask_mask htoks hlenT hndT hlen hcs

/-- Counterexample to C3 as stated: the tokens `Q` and `ZQW` are pairwise
distinct and occur nowhere in `Z{a}W` as literal text, yet masking glues the
copied text `Z`, the inserted token `Q` and the copied text `W` into a fresh
occurrence of the token `ZQW`, and unmasking returns `{b}` instead. -/
theorem c3_counterexample :
    ['Q'] ≠ ['Z', 'Q', 'W'] ∧
    containsSub ['Q'] ['Z', '{', 'a', '}', 'W'] = false ∧
    containsSub ['Z', 'Q', 'W'] ['Z', '{', 'a', '}', 'W'] = false ∧
    unmask [['a'], ['b']] [['Q'], ['Z', 'Q', 'W']]
        (mask [['a'], ['b']] [['Q'], ['Z', 'Q', 'W']] ['Z', '{', 'a', '}', 'W'])
      ≠ ['Z', '{', 'a', '}', 'W'] := by
  decide

/-- Witness for C3: the round trip at a concrete input. -/
theorem c3_mask_unmask_roundtrip_witness :
    unmask [['a']] [['#', '1']] (mask [['a']] [['#', '1']] ['x', '{', 'a', '}', 'y'])
      = ['x', '{', 'a', '}', 'y'] :=
  c3_mask_unmask_roundtrip [['a']] [['#', '1']] '#' 2 ['x', '{', 'a', '}', 'y']
    (by decide)
    (by
      intro t ht
      rw [List.mem_singleton] at ht
      subst ht
      exact ⟨['1'], rfl, by decide⟩)
    (by
      intro t ht
      rw [List.mem_singleton] at ht
      subst ht
      rfl)
    (by decide) (by decide) (by decide)

/-- Claim C4: with `all_required` true, `pipe` raises exactly when some
required `{name}` has no verbatim occurrence, the raised error lists every
missing name (the whole filtered list, not just the first), and when nothing
is missing the assertion returns the input unchanged. -/
theorem c4_missing_variable (vars toks : List (List Char)) (s : List Char) :
    ((∃ e, pipe vars toks true s = .error e) ↔
      ∃ v ∈ vars, containsSub (braceKey v) s = false) ∧
    (∀ e, pipe vars toks true s = .error e →
      e = missingMessage (vars.filter (fun v => !containsSub (braceKey v) s))) ∧
    (vars.filter (fun v => !containsSub (braceKey v) s) = [] →
      assertAllRequired vars true s = .ok s) := by
  have hassert : assertAllRequired vars true s =
      (if (vars.filter (fun v => !containsSub (braceKey v) s)).isEmpty
       then Except.ok s
       else Except.error (missingMessage
         (vars.filter (fun v => !containsSub (braceKey v) s)))) := rfl
  refine ⟨⟨?_, ?_⟩, ?_, ?_⟩
  · rintro ⟨e, he⟩
    rw [pipe, hassert] at he
    by_cases hm : (vars.filter (fun v => !containsSub (braceKey v) s)).isEmpty = true
    · rw [if_pos hm] at he
      simp at he
    · rw [if_neg hm] at he
      have hne : vars.filter (fun v => !containsSub (braceKey v) s) ≠ [] := by
        simpa [List.isEmpty_iff] using hm
      obtain ⟨v, hv⟩ := List.exists_mem_of_ne_nil _ hne
      have hv2 := List.mem_filter.mp hv
      exact ⟨v, hv2.1, by simpa using hv2.2⟩
  · rintro ⟨v, hvmem, hvc⟩
    have hvf : v ∈ vars.filter (fun v => !containsSub (braceKey v) s) :=
      List.mem_filter.mpr ⟨hvmem, by simp [hvc]⟩
    have hm : ¬ (vars.filter (fun v => !containsSub (braceKey v) s)).isEmpty = true := by
      simpa [List.isEmpty_iff] using List.ne_nil_of_mem hvf
    exact ⟨_, by rw [pipe, hassert, if_neg hm]⟩
  · intro e he
    rw [pipe, hassert] at he
    by_cases hm : (vars.filter (fun v => !containsSub (braceKey v) s)).isEmpty = true
    · rw [if_pos hm] at he
      simp at he
    · rw [if_neg hm] at he
      simpa using he.symm
  · intro hnil
    rw [hassert, if_pos (by simp [hnil])]

/-- Witness for C4: nothing is missing on a concrete input, so the
assertion passes it through. -/
theorem c4_missing_variable_witness :
    assertAllRequired [['a']] true ['{', 'a', '}'] = .ok ['{', 'a', '}'] :=
  (c4_missing_variable [['a']] [['t']] ['{', 'a', '}']).2.2 (by decide)

/-- Claim C5: `escape` doubles exactly the lone braces (a brace with an
identical adjacent neighbour in the original string is untouched), is the
identity on brace-free strings, and maps `a{b}c` to `a{{b}}c`. -/
theorem c5_escape_characterisation :
    (∀ s : List Char, escape s = specEscape s) ∧
    (∀ s : List Char, '{' ∉ s → '}' ∉ s → escape s = s) ∧
    escape ['a', '{', 'b', '}', 'c'] = ['a', '{', '{', 'b', '}', '}', 'c'] :=
  ⟨escape_eq_specEscape, fun _ h1 h2 => escape_of_no_braces h1 h2, by decide⟩

/-- Witness for C5: the identity on a concrete brace-free string. -/
theorem c5_escape_characterisation_witness : escape ['x', 'y'] = ['x', 'y'] :=
  c5_escape_characterisation.2.1 ['x', 'y'] (by decide) (by decide)

/-- Claim C6: with an empty variable set the healer is exactly `escape`,
and the mask, unmask and assertion steps are the identity. -/
theorem c6_empty_vars_escape (toks : List (List Char)) (ar : Bool) (s : List Char) :
    _get_var_healer [] toks ar s = .ok (escape s) ∧
    mask [] toks s = s ∧
    unmask [] toks s = s ∧
    assertAllRequired [] ar s = .ok s := by
  refine ⟨rfl, ?_, ?_, ?_⟩
  · rw [mask]
    rw [show maskTable [] toks = [] from by simp [maskTable]]
    exact subst_empty_table s
  · rw [unmask]
    rw [show unmaskTable [] toks = [] from by simp [unmaskTable]]
    exact subst_empty_table s
  · cases ar <;> rfl

/-- Claim C10: one `escape` pass leaves every brace with an identical
neighbour, so a second pass matches nothing: `escape` is idempotent on all
strings, including odd brace runs such as three consecutive braces, which
already pass through a single `escape` unchanged. -/
theorem c10_escape_idempotent :
    (∀ s : List Char, escape (escape s) = escape s) ∧
    escape ['{', '{', '{'] = ['{', '{', '{'] :=
  ⟨escape_idem, by decide⟩

/-- Counterexample to C2 as stated: in `<TO_OPTIMIZE {foo} >` the required
variable `{foo}` appears verbatim, so the assertion passes, but the lazy
opening-tag pattern swallows the masked placeholder and the pipe returns
the empty string: `{foo}` does not survive. -/
theorem c2_counterexample :
    containsSub (braceKey ['f', 'o', 'o'])
      ("<TO_OPTIMIZE ".toList ++ braceKey ['f', 'o', 'o'] ++ [' ', '>']) = true ∧
    pipe [['f', 'o', 'o']] [['u']] true
      ("<TO_OPTIMIZE ".toList ++ braceKey ['f', 'o', 'o'] ++ [' ', '>']) = .ok [] :=
  ⟨by decide, rfl⟩

/-- Claim C2 (amended): for inputs that contain every required placeholder
verbatim and contain no `<` (so that no `TO_OPTIMIZE` span is stripped),
with brace-free deduplicated names and well-formed opaque tokens
(marker-headed, common length, pairwise distinct, free of braces, `<` and
of characters of the input), the pipe succeeds, its output contains every
required `{foo}` verbatim, and contains `{{bar}}` for every stray
brace-free `{bar}` of the input; moreover the concrete `TO_OPTIMIZE`
example pipes to `hello {name}`. -/
theorem c2_placeholders_survive :
    (∀ (vars toks : List (List Char)) (c : Char) (L : Nat) (s : List Char),
      (∀ v ∈ vars, '{' ∉ v) → (∀ v ∈ vars, '}' ∉ v) →
      vars.Nodup → vars.length = toks.length →
      (∀ t ∈ toks, ∃ b, t = c :: b ∧ c ∉ b) →
      (∀ t ∈ toks, t.length = L) → toks.Nodup →
      (∀ t ∈ toks, '{' ∉ t) → (∀ t ∈ toks, '}' ∉ t) → (∀ t ∈ toks, '<' ∉ t) →
      c ≠ '{' → c ≠ '}' → c ∉ s → '<' ∉ s →
      (∀ v ∈ vars, containsSub (braceKey v) s = true) →
      ∃ out, pipe vars toks true s = .ok out ∧
        (∀ v ∈ vars, braceKey v <:+: out) ∧
        (∀ bar : List Char, bar ≠ [] → '{' ∉ bar → '}' ∉ bar → bar ∉ vars →
          braceKey bar <:+: s → ('{' :: '{' :: (bar ++ ['}', '}'])) <:+: out)) ∧
    pipe [['n', 'a', 'm', 'e']] [['#', 'a', 'b']] true
      ("<TO_OPTIMIZE note=".toList ++ [Char.ofNat 39, 'x', Char.ofNat 39]
        ++ ">hello ".toList ++ braceKey ['n', 'a', 'm', 'e'] ++ "</TO_OPTIMIZE>".toList)
      = .ok ("hello ".toList ++ braceKey ['n', 'a', 'm', 'e']) := by
  constructor
  · intro vars toks c L s hv1 hv2 hndv hlen htoks hlenT hndT htB1 htB2 htB3
      hc1 hc2 hcs hlt hreq
    have hfilter : vars.filter (fun v => !containsSub (braceKey v) s) = [] := by
      rw [List.filter_eq_nil_iff]
      intro v hv
      simp [hreq v hv]
    have hassert0 : assertAllRequired vars true s =
        (if (vars.filter (fun v => !containsSub (braceKey v) s)).isEmpty
         then Except.ok s
         else Except.error (missingMessage
           (vars.filter (fun v => !containsSub (braceKey v) s)))) := rfl
    have hassert : assertAllRequired vars true s = .ok s := by
      rw [hassert0, if_pos (by simp [hfilter])]
    have hnolt : '<' ∉ escape (mask vars toks s) := by
      intro hmem
      have h1 : '<' ∈ mask vars toks s := mem_escape hmem
      rcases mem_subst h1 with h2 | ⟨⟨k, t⟩, hkv, h2⟩
      · exact hlt h2
      · exact htB3 t (List.of_mem_zip hkv).2 h2
    have hstrip : stripToOptimize (escape (mask vars toks s)) = escape (mask vars toks s) :=
      strip_of_no_lt hnolt
    have hpipe : pipe vars toks true s
        = .ok (unmask vars toks (escape (mask vars toks s))) := by
      rw [pipe, hassert]
      show Except.ok (unmask vars toks (stripToOptimize (escape (mask vars toks s)))) = _
      rw [hstrip]
    refine ⟨unmask vars toks (escape (mask vars toks s)), hpipe, ?_, ?_⟩
    · intro v hv
      have hbk : braceKey v ∈ vars.map braceKey := List.mem_map_of_mem braceKey hv
      obtain ⟨tv, hvt, htv⟩ := mem_zip_of_mem_left (by simpa using hlen) hbk
      rcases containsSub_iff.mp (hreq v hv) with ⟨x, y, hxy⟩
      have hs2 : s = x ++ (braceKey v ++ y) := by rw [← hxy, List.append_assoc]
      rcases mask_replaces_key hv1 hv2 hndv hlen hvt x y with ⟨X, Y, hmask⟩
      rw [← hs2] at hmask
      rcases escape_braceFree_factor X tv Y (htB1 tv htv) (htB2 tv htv) with ⟨A, B, hesc⟩
      have hmask2 : mask vars toks s = X ++ tv ++ Y := by
        rw [hmask, List.append_assoc]
      rw [← hmask2] at hesc
      have hesc2 : escape (mask vars toks s) = A ++ (tv ++ B) := by
        rw [hesc, List.append_assoc]
      have hswap : (tv, braceKey v) ∈ unmaskTable vars toks := maskTable_mem_swap hvt
      rcases unmask_extracts_tok htoks hlenT hndT hlen hswap A B with ⟨X2, Y2, hun⟩
      rw [← hesc2] at hun
      exact ⟨X2, Y2, by rw [hun, List.append_assoc]⟩
    · intro bar hbne hb1 hb2 hbnv hocc
      rcases hocc with ⟨x, y, hxy⟩
      obtain ⟨bh, bt, rfl⟩ : ∃ bh bt, bar = bh :: bt := by
        match bar, hbne with
        | e :: et, _ => exact ⟨e, et, rfl⟩
      have hs2 : s = x ++ (braceKey (bh :: bt) ++ y) := by rw [← hxy, List.append_assoc]
      rcases mask_keeps_stray hv1 hv2 hb1 hb2 hbnv x y with ⟨X, Y, hmask⟩
      rw [← hs2] at hmask
      have hmask2 : mask vars toks s = X ++ ('{' :: (bh :: bt) ++ ['}']) ++ Y := by
        rw [hmask, List.append_assoc]
        rfl
      have hdbl := escape_doubles_stray X Y bh bt hb1 hb2
      rw [← hmask2] at hdbl
      rcases hdbl with ⟨E, F, hEF⟩
      have hcbar : c ∉ bh :: bt := by
        intro hm
        apply hcs
        have hmk : c ∈ braceKey (bh :: bt) := by
          rw [braceKey]
          exact List.mem_cons_of_mem _ (List.mem_append.mpr (Or.inl hm))
        rw [← hxy]
        exact List.mem_append.mpr (Or.inl (List.mem_append.mpr (Or.inr hmk)))
      have hcdbl : c ∉ '{' :: '{' :: ((bh :: bt) ++ ['}', '}']) := by
        intro hm
        rcases List.mem_cons.mp hm with h | hm2
        · exact hc1 h
        rcases List.mem_cons.mp hm2 with h | hm3
        · exact hc1 h
        rcases List.mem_append.mp hm3 with h | h
        · exact hcbar h
        · have : c = '}' := by simpa using h
          exact hc2 this
      have hdblh : ('{' :: '{' :: ((bh :: bt) ++ ['}', '}'])).head? = some '{' := rfl
      rcases unmask_keeps_factor htoks htB1 hcdbl hdblh E F with ⟨X2, Y2, hun⟩
      have hEF2 : escape (mask vars toks s) = E ++ (('{' :: '{' :: ((bh :: bt) ++ ['}', '}'])) ++ F) := by
        rw [← hEF, List.append_assoc]
      rw [← hEF2] at hun
      exact ⟨X2, Y2, by rw [hun, List.append_assoc]⟩
  · rfl

/-- Witness for C2: all hypotheses hold at a concrete input and the two
containment conclusions follow. -/
theorem c2_placeholders_survive_witness :
    ∃ out, pipe [['f', 'o', 'o']] [['#', 'a', 'b']] true
        ("hi ".toList ++ braceKey ['f', 'o', 'o'] ++ [' '] ++ braceKey ['b', 'a', 'r'])
        = .ok out ∧
      (∀ v ∈ [['f', 'o', 'o']], braceKey v <:+: out) ∧
      (∀ bar : List Char, bar ≠ [] → '{' ∉ bar → '}' ∉ bar → bar ∉ [['f', 'o', 'o']] →
        braceKey bar <:+: ("hi ".toList ++ braceKey ['f', 'o', 'o'] ++ [' ']
          ++ braceKey ['b', 'a', 'r']) →
        ('{' :: '{' :: (bar ++ ['}', '}'])) <:+: out) :=
  c2_placeholders_survive.1 [['f', 'o', 'o']] [['#', 'a', 'b']] '#' 3
    ("hi ".toList ++ braceKey ['f', 'o', 'o'] ++ [' '] ++ braceKey ['b', 'a', 'r'])
    (by decide) (by decide) (by decide) (by decide)
    (by
      intro t ht
      rw [List.mem_singleton] at ht
      subst ht
      exact ⟨['a', 'b'], rfl, by decide⟩)
    (by
      intro t ht
      rw [List.mem_singleton] at ht
      subst ht
      rfl)
    (by decide) (by decide) (by decide) (by decide) (by decide) (by decide)
    (by decide) (by decide) (by decide)

/-! The namespace resolver: `NamespaceTemplate`, `_get_key` and resolution
against a runtime configuration. -/

/-- The runtime context: a mapping that may carry a `configurable`
sub-mapping from names to substitution values. -/
structure RunnableConfig where
  configurable : Option (List (List Char × List Char))

/-- Python's `str.strip(cs)`: remove leading and trailing characters drawn
from `cs`. -/
def pyStrip (cs : List Char) (s : List Char) : List Char :=
  ((s.dropWhile (fun a => cs.contains a)).reverse.dropWhile
    (fun a => cs.contains a)).reverse

/-- `_get_key`: `ns.strip(r"{}") if ns.startswith("{") else None` (string
segments; the `isinstance` test always holds in this model). -/
def _get_key (ns : List Char) : Option (List Char) :=
  if ns.head? = some '{' then some (pyStrip ['{', '}'] ns) else none

/-- The `vars` dict comprehension of `NamespaceTemplate.__init__`: index to
key for every segment with a key, in template order. -/
def mkVars : Nat → List (List Char) → List (Nat × List Char)
  | _, [] => []
  | i, ns :: rest =>
    match _get_key ns with
    | some k => (i, k) :: mkVars (i + 1) rest
    | none => mkVars (i + 1) rest

structure NamespaceTemplate where
  template : List (List Char)
  vars : List (Nat × List Char)

/-- `NamespaceTemplate.__init__`. -/
def NamespaceTemplate.ofTemplate (template : List (List Char)) : NamespaceTemplate :=
  ⟨template, mkVars 0 template⟩

/-- `config["configurable"] if "configurable" in config else {}`. -/
def getConfigurable (config : RunnableConfig) : List (List Char × List Char) :=
  config.configurable.getD []

/-- `NamespaceTemplate.__call__` with a supplied context: when `vars` is
non-empty, substitute every variable position by the configurable value
under its key, defaulting to the original segment; otherwise return the
template unchanged. -/
def NamespaceTemplate.call (t : NamespaceTemplate) (config : RunnableConfig) :
    List (List Char) :=
  if t.vars.isEmpty then t.template
  else t.template.enum.map (fun p =>
    match List.lookup p.1 t.vars with
    | some key => (List.lookup key (getConfigurable config)).getD p.2
    | none => p.2)

theorem lookup_mkVars_lt : ∀ (l : List (List Char)) (b j : Nat), j < b →
    List.lookup j (mkVars b l) = none := by
  intro l
  induction l with
  | nil => intro b j _; rfl
  | cons x xs ih =>
    intro b j hj
    rw [mkVars]
    cases hk : _get_key x with
    | some k =>
      have hb : (j == b) = false := beq_eq_false_iff_ne.mpr (by omega)
      simp only [List.lookup, hb]
      exact ih (b + 1) j (by omega)
    | none => exact ih (b + 1) j (by omega)

theorem lookup_mkVars : ∀ (l : List (List Char)) (b j : Nat) (ns : List Char),
    l[j]? = some ns → List.lookup (b + j) (mkVars b l) = _get_key ns := by
  intro l
  induction l with
  | nil => intro b j ns h; simp at h
  | cons x xs ih =>
    intro b j ns h
    match j with
    | 0 =>
      have hx : x = ns := by simpa using h
      rw [mkVars, ← hx]
      cases hk : _get_key x with
      | some k =>
        simp only [hk, Nat.add_zero, List.lookup, beq_self_eq_true]
      | none =>
        simp only [hk]
        rw [Nat.add_zero]
        exact lookup_mkVars_lt xs (b + 1) b (by omega)
    | j + 1 =>
      have hxs : xs[j]? = some ns := by simpa using h
      rw [mkVars]
      cases hk : _get_key x with
      | some k =>
        have hb : (b + (j + 1) == b) = false := beq_eq_false_iff_ne.mpr (by omega)
        simp only [List.lookup, hb]
        rw [show b + (j + 1) = (b + 1) + j from by omega]
        exact ih (b + 1) j ns hxs
      | none =>
        rw [show b + (j + 1) = (b + 1) + j from by omega]
        exact ih (b + 1) j ns hxs

theorem mkVars_nil_iff : ∀ (l : List (List Char)) (b : Nat),
    mkVars b l = [] ↔ ∀ ns ∈ l, _get_key ns = none := by
  intro l
  induction l with
  | nil => intro b; simp [mkVars]
  | cons x xs ih =>
    intro b
    rw [mkVars]
    cases hk : _get_key x with
    | some k =>
      simp only [List.forall_mem_cons, hk]
      constructor
      · intro h; exact absurd h (by simp)
      · rintro ⟨h, -⟩; simp at h
    | none =>
      rw [ih (b + 1)]
      simp [List.forall_mem_cons, hk]

/-- Claim C7: resolution keeps the template length; each position with a
key is substituted by the configurable value under that key when present
and kept verbatim otherwise; keyless positions are untouched; and the
concrete example resolves as the specification says. -/
theorem c7_namespace_resolution :
    (∀ (template : List (List Char)) (config : RunnableConfig),
      ((NamespaceTemplate.ofTemplate template).call config).length = template.length ∧
      (∀ (i : Nat) (ns : List Char), template[i]? = some ns →
        ((NamespaceTemplate.ofTemplate template).call config)[i]? =
          some (match _get_key ns with
            | some k => (List.lookup k (getConfigurable config)).getD ns
            | none => ns))) ∧
    (NamespaceTemplate.ofTemplate [['a'], braceKey ['x'], ['b'], braceKey ['y']]).call
        ⟨some [(['x'], ['X'])]⟩
      = [['a'], ['X'], ['b'], braceKey ['y']] := by
  constructor
  · intro template config
    by_cases hv : (mkVars 0 template).isEmpty = true
    · have hcall : (NamespaceTemplate.ofTemplate template).call config = template := by
        show (if (mkVars 0 template).isEmpty = true then template
          else template.enum.map (fun p =>
            match List.lookup p.1 (mkVars 0 template) with
            | some key => (List.lookup key (getConfigurable config)).getD p.2
            | none => p.2)) = template
        rw [if_pos hv]
      refine ⟨by rw [hcall], ?_⟩
      intro i ns hns
      have hnone : _get_key ns = none := by
        rw [List.isEmpty_iff] at hv
        exact (mkVars_nil_iff template 0).mp hv ns (List.getElem?_mem hns)
      rw [hcall, hns, hnone]
    · have hcall : (NamespaceTemplate.ofTemplate template).call config =
          template.enum.map (fun p =>
            match List.lookup p.1 (mkVars 0 template) with
            | some key => (List.lookup key (getConfigurable config)).getD p.2
            | none => p.2) := by
        show (if (mkVars 0 template).isEmpty = true then template
          else template.enum.map (fun p =>
            match List.lookup p.1 (mkVars 0 template) with
            | some key => (List.lookup key (getConfigurable config)).getD p.2
            | none => p.2)) = _
        rw [if_neg hv]
      refine ⟨by rw [hcall]; simp [List.enum_length], ?_⟩
      intro i ns hns
      rw [hcall, List.getElem?_map, List.getElem?_enum, hns]
      have hlk : List.lookup i (mkVars 0 template) = _get_key ns := by
        have := lookup_mkVars template 0 i ns hns
        simpa using this
      simp only [Option.map_some']
      rw [hlk]
  · rfl

/-- Witness for C7: the variable position of a concrete template resolves
through the configurable mapping. -/
theorem c7_namespace_resolution_witness :
    ((NamespaceTemplate.ofTemplate [['a'], braceKey ['x']]).call
        ⟨some [(['x'], ['X'])]⟩)[1]?
      = some (match _get_key (braceKey ['x']) with
          | some k => (List.lookup k (getConfigurable ⟨some [(['x'], ['X'])]⟩)).getD
              (braceKey ['x'])
          | none => braceKey ['x']) :=
  (c7_namespace_resolution.1 [['a'], braceKey ['x']] ⟨some [(['x'], ['X'])]⟩).2 1
    (braceKey ['x']) (by decide)

/-- Counterexample to C8 as stated: the segment `{foo` has no closing brace
at all, so it does not match the pattern `{identifier}`, yet construction
records it as a positional variable keyed `foo`. -/
theorem c8_counterexample :
    '}' ∉ ('{' :: ['f', 'o', 'o']) ∧
    List.lookup 0 ((NamespaceTemplate.ofTemplate [('{' :: ['f', 'o', 'o'])]).vars)
      = some ['f', 'o', 'o'] := by
  decide

/-- Claim C8 (amended): a segment is recorded as a positional variable if
and only if it begins with `{`; its key is the segment stripped of all
leading and trailing brace characters; every other segment is a literal. -/
theorem c8_get_key_amended :
    (∀ (template : List (List Char)) (i : Nat) (ns : List Char),
      template[i]? = some ns →
      List.lookup i ((NamespaceTemplate.ofTemplate template).vars) =
        (if ns.head? = some '{' then some (pyStrip ['{', '}'] ns) else none)) ∧
    _get_key (braceKey ['x']) = some ['x'] ∧
    _get_key ('{' :: ['f', 'o', 'o']) = some ['f', 'o', 'o'] := by
  refine ⟨?_, by decide, by decide⟩
  intro template i ns hns
  have := lookup_mkVars template 0 i ns hns
  simpa [_get_key] using this

/-- Witness for C8: the recorded key of a concrete well-formed segment. -/
theorem c8_get_key_amended_witness :
    List.lookup 0 ((NamespaceTemplate.ofTemplate [braceKey ['x']]).vars)
      = (if (braceKey ['x']).head? = some '{'
         then some (pyStrip ['{', '}'] (braceKey ['x'])) else none) :=
  c8_get_key_amended.1 [braceKey ['x']] 0 (braceKey ['x']) rfl

/-! The session formatter `format_sessions`: Python values are modelled by
a small dynamic type; message merging and pretty-printing are external
(langchain) and are taken as a `render` parameter; the per-call
`uuid4().hex` identifiers are supplied as `ids`. -/

/-- Dynamic Python values as far as `format_sessions` inspects them:
message objects (opaque), strings, lists and tuples. -/
inductive PyVal where
  | msg : Nat → PyVal
  | str : List Char → PyVal
  | vList : List PyVal → PyVal
  | vTuple : List PyVal → PyVal

/-- Python truthiness of the shapes involved: `not sessions`. -/
def isFalsy : PyVal → Bool
  | .msg _ => false
  | .str s => s.isEmpty
  | .vList l => l.isEmpty
  | .vTuple l => l.isEmpty

/-- Tuple unpacking `(session, feedback) = e`: succeeds exactly on
two-element tuples, two-element lists and two-character strings. -/
def unpack2 : PyVal → Option (PyVal × PyVal)
  | .vTuple [a, b] => some (a, b)
  | .vList [a, b] => some (a, b)
  | .str [c1, c2] => some (.str [c1], .str [c2])
  | _ => none

/-- The input-shape dispatch of `format_sessions`: a string becomes a
single (session, "") pair; a list whose first element is a list becomes a
list of (session, "") pairs; a tuple whose first element is a list is
wrapped as a single pair; everything else falls through unchanged (the
`TODO: Handle others` in the source) and is iterated as-is; a bare message
object is not iterable. -/
def normalizeSessions : PyVal → Except (List Char) (List PyVal)
  | .str s => .ok [.vTuple [.str s, .str []]]
  | .vList (x :: xs) =>
    match x with
    | .vList _ => .ok ((x :: xs).map (fun sess => PyVal.vTuple [sess, .str []]))
    | _ => .ok (x :: xs)
  | .vTuple (x :: xs) =>
    match x with
    | .vList _ => .ok [.vTuple (x :: xs)]
    | _ => .ok (x :: xs)
  | .vList [] => .ok []
  | .vTuple [] => .ok []
  | .msg _ => .error ("TypeError: object is not iterable").toList

/-- The f-string rendering of a feedback value; only the string case is
exercised here, other shapes are abstracted to their repr being opaque. -/
def pyStr : PyVal → List Char
  | .str s => s
  | _ => []

/-- One `<session_{id}>` block, with the optional feedback block. -/
def sessionBlock (render : PyVal → List Char) (id_ : List Char)
    (sess fb : PyVal) : List Char :=
  let fbTxt := if isFalsy fb then []
    else ("\n\nFeedback for session ").toList ++ id_ ++ (":\n<FEEDBACK>\n").toList
      ++ pyStr fb ++ ("\n</FEEDBACK>").toList
  ("<session_").toList ++ id_ ++ (">\n").toList ++ render sess ++ fbTxt
    ++ ("\n</session_").toList ++ id_ ++ (">").toList

/-- The main loop `for id_, (session, feedback) in zip(ids_, sessions)`:
unpacking a non-pair element raises. -/
def buildBlocks (render : PyVal → List Char) :
    List (List Char × PyVal) → Except (List Char) (List (List Char))
  | [] => .ok []
  | (id_, e) :: rest =>
    match unpack2 e with
    | none => .error ("TypeError: cannot unpack").toList
    | some (sess, fb) =>
      match buildBlocks render rest with
      | .error err => .error err
      | .ok blocks => .ok (sessionBlock render id_ sess fb :: blocks)

/-- `format_sessions`. -/
def format_sessions (render : PyVal → List Char) (ids : List (List Char))
    (sessions : PyVal) : Except (List Char) (List Char) :=
  if isFalsy sessions then .ok []
  else
    match normalizeSessions sessions with
    | .error e => .error e
    | .ok elems =>
      match buildBlocks render (ids.zip elems) with
      | .error e => .error e
      | .ok blocks => .ok (List.intercalate ("\n\n").toList blocks)

/-- Claim C9 evidence: empty input of any declared shape yields the empty
string, and the sequence-of-sessions, single-pair and sequence-of-pairs
shapes are processed without raising; but the first declared shape, a
single session (a list of message objects), is not normalized by the
dispatch, so the loop tries to unpack a message object as a
(session, feedback) pair and raises. -/
theorem c9_format_sessions_single_session_raises :
    (∀ (render : PyVal → List Char) (ids : List (List Char)),
      format_sessions render ids (.vList []) = .ok [] ∧
      format_sessions render ids (.vTuple []) = .ok [] ∧
      format_sessions render ids (.str []) = .ok []) ∧
    (∃ out, format_sessions (fun _ => ['m']) [['i']]
      (.vList [.vList [.msg 0]]) = .ok out) ∧
    (∃ out, format_sessions (fun _ => ['m']) [['i']]
      (.vTuple [.vList [.msg 0], .str ['f']]) = .ok out) ∧
    (∃ out, format_sessions (fun _ => ['m']) [['i'], ['j']]
      (.vList [.vTuple [.vList [.msg 0], .str []], .vTuple [.vList [.msg 1], .str ['g']]])
      = .ok out) ∧
    format_sessions (fun _ => ['m']) [['i']] (.vList [.msg 0])
      = .error ("TypeError: cannot unpack").toList :=
  ⟨fun _ _ => ⟨rfl, rfl, rfl⟩, ⟨_, rfl⟩, ⟨_, rfl⟩, ⟨_, rfl⟩, rfl⟩

end Langmem
